import Mathlib

/-!
# ATM simulator: `Box` and `ATM` of `Titkov(ATM).cpp`

Shallow embedding of the two classes of the program.

* C++ `int` is modelled by `Int`.  Under the class invariant (`Box.Inv`: the
  denomination is `0, 10, 20, 50` or `100`, the count is in `[0, 100]`) and for a
  requested amount that passed the `amount > 3000` guard, every intermediate value
  of the program stays far inside the 32-bit range, so no wrap-around is modelled.
  C++ `/` on `int` truncates towards zero: `Int.tdiv`.
* A member function that can throw returns the object state after the call
  together with `Except Err _`; the state component is what the object holds when
  the exception leaves the function.
* `std::vector<Box>` is a `List Box`; `operator[]` is `subscript`, which yields
  `none` outside the collection.  The program never throws for that case, the
  embedding reports it as `Err.OutOfRange`.
* `std::sort` is a parameter `sort` of the withdrawal: a function on the list of boxes
  of which the theorems assume only `SortContract`, what the C++ standard promises of
  `std::sort` with the comparator of the program (a permutation in descending order
  of denomination; the order of boxes of equal denomination is left open).
  `stableSort` and `tiesFrontSort` are two such functions.
* Console output is modelled by the returned value (the committed plan for a
  withdrawal, the per-box lines and the total for the status report).
-/

namespace ATMSim

/-- Failures of the program.  All but the last are the `std::runtime_error`s thrown
by the source, named after the error kinds of the specification. -/
inductive Err where
  /-- Message "Invalid number of banknotes. Max 100 per box." -/
  | InvalidCount
  /-- Message "Invalid nominal value." -/
  | InvalidDenomination
  /-- Message "Invalid box number." -/
  | InvalidContainer
  /-- Message "Invalid withdrawal command." -/
  | MalformedCommand
  /-- Message "Amount exceeds 3000 EUR." -/
  | AmountTooLarge
  /-- Message "Insufficient funds or denominations to fulfill the request." -/
  | InsufficientFunds
  /-- Message "Unknown command." -/
  | UnknownCommand
  /-- Not an exception of the program: a vector subscript outside the collection. -/
  | OutOfRange
  deriving DecidableEq

/-- Class `Box`: the three private `int` fields. -/
structure Box where
  boxNumber : Int
  nominal : Int
  count : Int
  deriving DecidableEq

/-- Constructor `Box(int number)`. -/
def Box.new (number : Int) : Box :=
  { boxNumber := number, nominal := 0, count := 0 }

/-- Method `Box::getTotalAmount`. -/
def Box.getTotalAmount (b : Box) : Int :=
  b.nominal * b.count

/-- Method `Box::load`: the count is checked first, then the denomination, then both fields
are overwritten. -/
def Box.load (b : Box) (newNominal newCount : Int) : Box × Except Err Unit :=
  if newCount < 0 ∨ newCount > 100 then
    (b, .error .InvalidCount)
  else if newNominal ≠ 10 ∧ newNominal ≠ 20 ∧ newNominal ≠ 50 ∧ newNominal ≠ 100 then
    (b, .error .InvalidDenomination)
  else
    ({ b with nominal := newNominal, count := newCount }, .ok ())

/-- Method `Box::withdraw(needed, usedCount)`: the box afterwards, the returned value
`taken`, and the out-parameter `usedCount`. -/
def Box.withdraw (b : Box) (needed : Int) : Box × Int × Int :=
  if b.nominal = 0 ∨ b.count = 0 ∨ needed < b.nominal then
    (b, 0, 0)
  else
    let usedCount := min b.count (needed.tdiv b.nominal)
    let taken := usedCount * b.nominal
    ({ b with count := b.count - usedCount }, taken, usedCount)

/-- Method `Box::printStatus`: the four numbers of the printed line. -/
def Box.printStatus (b : Box) : Int × Int × Int × Int :=
  (b.boxNumber, b.nominal, b.count, b.getTotalAmount)

/-- Class `ATM`: the private vector of boxes. -/
structure ATM where
  boxes : List Box
  deriving DecidableEq

/-- Constructor `ATM()`: boxes numbered 1 to 6, each unloaded and empty. -/
def ATM.new : ATM :=
  { boxes := [1, 2, 3, 4, 5, 6].map Box.new }

/-- Vector access `boxes[i]` for an `int` index `i`. -/
def subscript (boxes : List Box) (i : Int) : Option Box :=
  if i < 0 then none else boxes[i.toNat]?

/-- A plan entry `std::tuple<int, int, int>`: box number, denomination, notes. -/
abbrev Entry := Int × Int × Int

/-- Body of `ATM::loadBox` once `parseLoad` has decoded the three integers. -/
def ATM.loadDecoded (atm : ATM) (boxNo nominal count : Int) : ATM × Except Err Unit :=
  if boxNo < 1 ∨ boxNo > 6 then
    (atm, .error .InvalidContainer)
  else
    match subscript atm.boxes (boxNo - 1) with
    | none => (atm, .error .OutOfRange)
    | some box =>
      let r := box.load nominal count
      ({ boxes := atm.boxes.set (boxNo - 1).toNat r.1 }, r.2)

/-- The comparator of the sort orders by denomination, larger first: a list is in
order when no box is followed by one of larger denomination. -/
def Descending (l : List Box) : Prop :=
  l.Pairwise (fun a b => a.nominal ≥ b.nominal)

/-- What the C++ standard promises of `std::sort(begin, end, comp)` with the comparator
`a->getNominal() > b->getNominal()`: the result is a permutation of the input and is
in order for the comparator.  `std::sort` is not a stable sort, so nothing is
promised about the order of boxes of equal denomination. -/
def SortContract (sort : List Box → List Box) : Prop :=
  ∀ boxes : List Box, (sort boxes).Perm boxes ∧ Descending (sort boxes)

/-- One insertion step: `x` is placed in front of the first element whose denomination
is strictly smaller, so behind the boxes of equal denomination. -/
def insertBox (x : Box) : List Box → List Box
  | [] => [x]
  | y :: ys => if x.nominal > y.nominal then x :: y :: ys else y :: insertBox x ys

/-- One function that meets `SortContract`: left-to-right insertion sort.  It keeps
boxes of equal denomination in their original order. -/
def stableSort (boxes : List Box) : List Box :=
  boxes.foldl (fun acc b => insertBox b acc) []

/-- One insertion step that places `x` in front of the boxes of equal denomination. -/
def insertBoxFront (x : Box) : List Box → List Box
  | [] => [x]
  | y :: ys => if x.nominal ≥ y.nominal then x :: y :: ys else y :: insertBoxFront x ys

/-- Another function that meets `SortContract`: it reverses the original order among
boxes of equal denomination. -/
def tiesFrontSort (boxes : List Box) : List Box :=
  boxes.foldl (fun acc b => insertBoxFront b acc) []

/-- The preview loop over the sorted boxes: the recorded plan and the final value of
`previewRemaining`. -/
def previewLoop : List Box → Int → List Entry × Int
  | [], previewRemaining => ([], previewRemaining)
  | box :: rest, previewRemaining =>
    if box.nominal = 0 then
      previewLoop rest previewRemaining
    else
      let canUse := min box.count (previewRemaining.tdiv box.nominal)
      if canUse > 0 then
        if previewRemaining - canUse * box.nominal = 0 then
          ([(box.boxNumber, box.nominal, canUse)], previewRemaining - canUse * box.nominal)
        else
          let r := previewLoop rest (previewRemaining - canUse * box.nominal)
          ((box.boxNumber, box.nominal, canUse) :: r.1, r.2)
      else if previewRemaining = 0 then
        ([], previewRemaining)
      else
        previewLoop rest previewRemaining

/-- The commit loop: replays the plan through `Box::withdraw` and fills
`withdrawalResult`. -/
def commitLoop : List Entry → List Box → List Box × Except Err (List Entry)
  | [], boxes => (boxes, .ok [])
  | t :: ts, boxes =>
    match subscript boxes (t.1 - 1) with
    | none => (boxes, .error .OutOfRange)
    | some box =>
      let r := commitLoop ts (boxes.set (t.1 - 1).toNat (box.withdraw (t.2.1 * t.2.2)).1)
      (r.1, r.2.map (fun res => t :: res))

/-- Body of `ATM::withdrawMoney` once `parseWithdraw` has decoded the amount: the
ceiling check, the sort of the boxes (`sort` stands for `std::sort`), the preview, the
feasibility check and the commit.  The value on success is `withdrawalResult`. -/
def ATM.withdrawDecoded (atm : ATM) (sort : List Box → List Box) (amount : Int) :
    ATM × Except Err (List Entry) :=
  if amount > 3000 then
    (atm, .error .AmountTooLarge)
  else
    let p := previewLoop (sort atm.boxes) amount
    if p.2 > 0 then
      (atm, .error .InsufficientFunds)
    else
      let r := commitLoop p.1 atm.boxes
      ({ boxes := r.1 }, r.2)

/-- Method `ATM::printStatus`: the printed lines and the printed total; the object is not
modified. -/
def ATM.printStatus (atm : ATM) : ATM × List (Int × Int × Int × Int) × Int :=
  (atm, atm.boxes.map Box.printStatus,
    atm.boxes.foldl (fun total box => total + box.getTotalAmount) 0)

/-- Whitespace as `isspace` in the "C" locale sees it: the characters a formatted
extraction skips. -/
def isSpace (c : Char) : Bool :=
  c.toNat = 32 || (9 ≤ c.toNat && c.toNat ≤ 13)

/-- Extraction `ss >> dummy` for a `char`: skips leading whitespace and takes one character; fails
at the end of the input. -/
def readChar (s : List Char) : Option (Char × List Char) :=
  match s.dropWhile isSpace with
  | [] => none
  | c :: rest => some (c, rest)

/-- Value of a run of decimal digits. -/
def digitsValue (ds : List Char) : Nat :=
  ds.foldl (fun acc c => 10 * acc + (c.toNat - 48)) 0

/-- Extraction `ss >> n` for an `int`: skips leading whitespace, takes an optional sign and the
longest run of decimal digits; fails when there is no digit or when the value does
not fit in 32 bits. -/
def readInt (s : List Char) : Option (Int × List Char) :=
  let body : Bool × List Char :=
    match s.dropWhile isSpace with
    | '-' :: rest => (true, rest)
    | '+' :: rest => (false, rest)
    | other => (false, other)
  let digits := body.2.takeWhile Char.isDigit
  let value : Int := if body.1 then -(digitsValue digits : Int) else (digitsValue digits : Int)
  if digits = [] then none
  else if value < -2147483648 ∨ value > 2147483647 then none
  else some (value, body.2.dropWhile Char.isDigit)

/-- Method `ATM::parseLoad`: two characters, an integer, a character, an integer, a character,
an integer; `none` stands for the result `false`. -/
def parseLoad (cmd : List Char) : Option (Int × Int × Int) := do
  let (_, s1) ← readChar cmd
  let (_, s2) ← readChar s1
  let (boxNo, s3) ← readInt s2
  let (_, s4) ← readChar s3
  let (nominal, s5) ← readInt s4
  let (_, s6) ← readChar s5
  let (count, _) ← readInt s6
  pure (boxNo, nominal, count)

/-- Method `ATM::parseWithdraw`: two characters and an integer. -/
def parseWithdraw (cmd : List Char) : Option Int := do
  let (_, s1) ← readChar cmd
  let (_, s2) ← readChar s1
  let (amount, _) ← readInt s2
  pure amount

/-- Method `ATM::loadBox`: nothing happens when `parseLoad` returns `false`. -/
def ATM.loadBox (atm : ATM) (cmd : List Char) : ATM × Except Err Unit :=
  match parseLoad cmd with
  | some (boxNo, nominal, count) => atm.loadDecoded boxNo nominal count
  | none => (atm, .ok ())

/-- Method `ATM::withdrawMoney`: throws when `parseWithdraw` returns `false`. -/
def ATM.withdrawMoney (atm : ATM) (sort : List Box → List Box) (cmd : List Char) :
    ATM × Except Err (List Entry) :=
  match parseWithdraw cmd with
  | none => (atm, .error .MalformedCommand)
  | some amount => atm.withdrawDecoded sort amount

/-- What a command prints on success. -/
inductive Output where
  /-- Nothing is printed (empty command, load). -/
  | silent
  /-- Report "Withdrawal Successful" with the committed plan. -/
  | withdrawal (plan : List Entry)
  /-- Report "Current ATM Status" with one line per box and the total. -/
  | status (lines : List (Int × Int × Int × Int)) (total : Int)
  deriving DecidableEq

/-- Method `ATM::processCommand` on the characters of the input line. -/
def ATM.processCommand (atm : ATM) (sort : List Box → List Box) (command : List Char) :
    ATM × Except Err Output :=
  match command with
  | [] => (atm, .ok .silent)
  | c :: _ =>
    if c = 'L' then
      let r := atm.loadBox command
      (r.1, r.2.map (fun _ => Output.silent))
    else if c = 'W' then
      let r := atm.withdrawMoney sort command
      (r.1, r.2.map Output.withdrawal)
    else if c = 'P' then
      let r := atm.printStatus
      (r.1, .ok (Output.status r.2.1 r.2.2))
    else
      (atm, .error .UnknownCommand)

/-- The allowed denominations of `Box::load`. -/
def allowedNominal (n : Int) : Prop :=
  n = 10 ∨ n = 20 ∨ n = 50 ∨ n = 100

instance : DecidablePred allowedNominal := fun n => by
  unfold allowedNominal; infer_instance

/-- Container invariant: unloaded or an allowed denomination, count in `[0, 100]`. -/
def Box.Inv (b : Box) : Prop :=
  (b.nominal = 0 ∨ allowedNominal b.nominal) ∧ 0 ≤ b.count ∧ b.count ≤ 100

instance : DecidablePred Box.Inv := fun b => by
  unfold Box.Inv; infer_instance

/-- Every container of the dispenser satisfies the container invariant. -/
def ATM.Inv (atm : ATM) : Prop :=
  ∀ b ∈ atm.boxes, b.Inv

instance : DecidablePred ATM.Inv := fun atm => by
  unfold ATM.Inv; infer_instance

/-- Shape of the collection as built by the constructor: six boxes numbered 1 to 6 in
order. -/
def ATM.WF (atm : ATM) : Prop :=
  atm.boxes.map Box.boxNumber = [1, 2, 3, 4, 5, 6]

instance : DecidablePred ATM.WF := fun atm => by
  unfold ATM.WF; infer_instance

/-- A reachable sample state: box 1 holds 20 × 3, box 2 holds 50 × 1, the other four
boxes are unloaded. -/
def sampleATM : ATM :=
  { boxes := [{ boxNumber := 1, nominal := 20, count := 3 },
              { boxNumber := 2, nominal := 50, count := 1 },
              Box.new 3, Box.new 4, Box.new 5, Box.new 6] }

/-- Position matches identifier: the box at index `j` carries the number `j + 1`. -/
def Numbered (boxes : List Box) : Prop :=
  ∀ (j : Nat) (h : j < boxes.length), boxes[j].boxNumber = (j : Int) + 1

/-- Notes a plan takes from the box numbered `id` (0 when the box is absent). -/
def planNotes (plan : List Entry) (id : Int) : Int :=
  ((plan.filter (fun t => t.1 = id)).map (fun t => t.2.2)).sum

/-- Value of a plan: the sum of denomination × notes over its entries. -/
def planValue (plan : List Entry) : Int :=
  (plan.map (fun t => t.2.1 * t.2.2)).sum

/-- States the program can be in when its `std::sort` is `sort`: the freshly
constructed dispenser, and every state obtained from a reachable one by an input line
(`processCommand`), by a decoded load or withdrawal request with any integers, or by
a status report.  Failing steps count: the state they leave behind is reachable
too. -/
inductive Reachable (sort : List Box → List Box) : ATM → Prop where
  | start : Reachable sort ATM.new
  | line (atm : ATM) (cmd : List Char) :
      Reachable sort atm → Reachable sort (atm.processCommand sort cmd).1
  | load (atm : ATM) (boxNo nominal count : Int) :
      Reachable sort atm → Reachable sort (atm.loadDecoded boxNo nominal count).1
  | withdraw (atm : ATM) (amount : Int) :
      Reachable sort atm → Reachable sort (atm.withdrawDecoded sort amount).1
  | status (atm : ATM) : Reachable sort atm → Reachable sort atm.printStatus.1

/-- A selection of notes, one number per box in order, stays within each box's stock. -/
def withinStock (boxes : List Box) (sel : List Int) : Prop :=
  sel.length = boxes.length ∧ ∀ p ∈ boxes.zip sel, 0 ≤ p.2 ∧ p.2 ≤ p.1.count

instance (boxes : List Box) (sel : List Int) : Decidable (withinStock boxes sel) := by
  unfold withinStock; infer_instance

/-- Value of a selection: the sum of denomination × selected notes over the boxes. -/
def selectionValue (boxes : List Box) (sel : List Int) : Int :=
  (List.zipWith (fun b n => b.nominal * n) boxes sel).sum

/-! ## Auxiliary facts about the embedding -/

theorem list_set_same (l : List Box) (i : Nat) (a : Box) (h : l[i]? = some a) :
    l.set i a = l := by
  induction l generalizing i with
  | nil => rfl
  | cons x xs ih =>
    cases i with
    | zero => simp at h; simp [h]
    | succ n => simp at h; simp [ih n h]

theorem subscript_set_self (boxes : List Box) (i : Int) (box : Box)
    (h : subscript boxes i = some box) : boxes.set i.toNat box = boxes := by
  unfold subscript at h
  split at h
  · cases h
  · exact list_set_same _ _ _ h

theorem subscript_isSome (boxes : List Box) (i : Int) (h0 : 0 ≤ i) (h1 : i < boxes.length) :
    ∃ box, subscript boxes i = some box ∧ boxes[i.toNat]? = some box := by
  have hlt : i.toNat < boxes.length := by omega
  refine ⟨boxes[i.toNat], ?_, List.getElem?_eq_getElem hlt⟩
  simp [subscript, not_lt.mpr h0, List.getElem?_eq_getElem hlt]

theorem commitLoop_error (plan : List Entry) (boxes : List Box) (e : Err)
    (h : (commitLoop plan boxes).2 = .error e) : e = .OutOfRange := by
  induction plan generalizing boxes with
  | nil => simp [commitLoop] at h
  | cons t ts ih =>
    unfold commitLoop at h
    split at h
    · simp at h; exact h.symm
    · rename_i box hb
      simp only at h
      cases hr : (commitLoop ts (boxes.set (t.1 - 1).toNat (box.withdraw (t.2.1 * t.2.2)).1)).2 with
      | error e2 =>
        rw [hr] at h
        simp [Except.map] at h
        subst h
        exact ih _ hr
      | ok res =>
        rw [hr] at h
        simp [Except.map] at h

theorem commitLoop_ok (plan : List Entry) (boxes : List Box) (res : List Entry)
    (h : (commitLoop plan boxes).2 = .ok res) : res = plan := by
  induction plan generalizing boxes res with
  | nil => simp [commitLoop] at h; exact h
  | cons t ts ih =>
    unfold commitLoop at h
    split at h
    · simp at h
    · rename_i box hb
      simp only at h
      cases hr : (commitLoop ts (boxes.set (t.1 - 1).toNat (box.withdraw (t.2.1 * t.2.2)).1)).2 with
      | error e2 =>
        rw [hr] at h
        simp [Except.map] at h
      | ok res2 =>
        rw [hr] at h
        simp [Except.map] at h
        subst h
        rw [ih _ _ hr]

/-! ## Container operations -/

/-- C5 (as amended): a denomination outside {10, 20, 50, 100} loaded with a count within
[0, 100] fails with InvalidDenomination and leaves the container unchanged. -/
theorem load_invalid_denomination (b : Box) (d c : Int) (hd : ¬ allowedNominal d)
    (hc : 0 ≤ c ∧ c ≤ 100) :
    b.load d c = (b, .error .InvalidDenomination) := by
  have h1 : ¬ (c < 0 ∨ c > 100) := by omega
  have h2 : d ≠ 10 ∧ d ≠ 20 ∧ d ≠ 50 ∧ d ≠ 100 := by
    unfold allowedNominal at hd; omega
  simp [Box.load, h1, h2]

/-- Instance of `load_invalid_denomination`: denomination 7 with count 100. -/
theorem load_invalid_denomination_witness :
    (Box.new 1).load 7 100 = (Box.new 1, .error .InvalidDenomination) :=
  load_invalid_denomination (Box.new 1) 7 100 (by decide) (by decide)

/-- C5 as stated fails: denomination 7 is not allowed, yet loading it with count 101
fails with InvalidCount, not with InvalidDenomination, because the count is checked
first. -/
theorem load_invalid_denomination_counterexample :
    ¬ allowedNominal 7 ∧
      (Box.new 1).load 7 101 = (Box.new 1, .error .InvalidCount) ∧
      ((Box.new 1).load 7 101).2 ≠ .error .InvalidDenomination := by
  refine ⟨by decide, rfl, ?_⟩
  intro h
  cases h

/-- C6: a count outside [0, 100] makes `Box.load` fail with InvalidCount whatever the
denomination, leaving the container unchanged; a count within [0, 100] (0 and 100
included) with an allowed denomination succeeds and stores both values. -/
theorem load_count_validation (b : Box) (d c : Int) :
    ((c < 0 ∨ 100 < c) → b.load d c = (b, .error .InvalidCount)) ∧
    (0 ≤ c ∧ c ≤ 100 → allowedNominal d →
      b.load d c = ({ boxNumber := b.boxNumber, nominal := d, count := c }, .ok ())) := by
  constructor
  · intro h
    have h1 : c < 0 ∨ c > 100 := by omega
    simp [Box.load, h1]
  · intro hc hd
    have h1 : ¬ (c < 0 ∨ c > 100) := by omega
    have h2 : ¬ (d ≠ 10 ∧ d ≠ 20 ∧ d ≠ 50 ∧ d ≠ 100) := by
      unfold allowedNominal at hd; omega
    simp [Box.load, h1, h2]

/-- Instances of `load_count_validation`: counts 101 and -1 are rejected (also with the
denomination 7), counts 0 and 100 are accepted. -/
theorem load_count_validation_witness :
    (Box.new 1).load 7 101 = (Box.new 1, .error .InvalidCount) ∧
    (Box.new 1).load 50 (-1) = (Box.new 1, .error .InvalidCount) ∧
    (Box.new 1).load 50 0 = ({ boxNumber := 1, nominal := 50, count := 0 }, .ok ()) ∧
    (Box.new 1).load 50 100 = ({ boxNumber := 1, nominal := 50, count := 100 }, .ok ()) :=
  ⟨(load_count_validation (Box.new 1) 7 101).1 (by decide),
   (load_count_validation (Box.new 1) 50 (-1)).1 (by decide),
   (load_count_validation (Box.new 1) 50 0).2 (by decide) (by decide),
   (load_count_validation (Box.new 1) 50 100).2 (by decide) (by decide)⟩

/-- C10: for a container satisfying the invariant, `Box.withdraw v` is a no-op returning
0 notes and value 0 when the container is unloaded, empty, or `v` is below the
denomination; otherwise it uses `min count (v / denomination)` notes, returns their
value, and lowers the count by that number.  The denomination and box number never
change, the value is notes × denomination, and the notes used lie in [0, count]. -/
theorem box_withdraw_result (b : Box) (v : Int) (hinv : b.Inv) :
    ((b.nominal = 0 ∨ b.count = 0 ∨ v < b.nominal) → b.withdraw v = (b, 0, 0)) ∧
    (¬ (b.nominal = 0 ∨ b.count = 0 ∨ v < b.nominal) →
      b.withdraw v =
        ({ boxNumber := b.boxNumber, nominal := b.nominal,
           count := b.count - min b.count (v / b.nominal) },
         min b.count (v / b.nominal) * b.nominal, min b.count (v / b.nominal))) ∧
    (b.withdraw v).1.nominal = b.nominal ∧
    (b.withdraw v).1.boxNumber = b.boxNumber ∧
    (b.withdraw v).1.count = b.count - (b.withdraw v).2.2 ∧
    (b.withdraw v).2.1 = (b.withdraw v).2.2 * b.nominal ∧
    0 ≤ (b.withdraw v).2.2 ∧ (b.withdraw v).2.2 ≤ b.count := by
  obtain ⟨hn, hc0, hc1⟩ := hinv
  by_cases hg : b.nominal = 0 ∨ b.count = 0 ∨ v < b.nominal
  · simp [Box.withdraw, hg, hc0]
  · have hnpos : 0 < b.nominal := by
      unfold allowedNominal at hn; omega
    have hv : 0 ≤ v := by omega
    have hdiv : v.tdiv b.nominal = v / b.nominal := Int.tdiv_eq_ediv hv hnpos.le
    have hq : 0 ≤ v / b.nominal := Int.ediv_nonneg hv hnpos.le
    have hw : b.withdraw v =
        ({ boxNumber := b.boxNumber, nominal := b.nominal,
           count := b.count - min b.count (v / b.nominal) },
         min b.count (v / b.nominal) * b.nominal, min b.count (v / b.nominal)) := by
      simp only [Box.withdraw, hg, if_false, hdiv]
    rw [hw]
    exact ⟨fun h => absurd h hg, fun _ => rfl, rfl, rfl, rfl, rfl, le_min hc0 hq,
      min_le_left _ _⟩

/-- Instance of `box_withdraw_result`: a box of three 50s asked for 120 gives two notes
worth 100 and keeps one; asked for 40 it gives nothing. -/
theorem box_withdraw_result_witness :
    Box.Inv { boxNumber := 2, nominal := 50, count := 3 } ∧
    Box.withdraw { boxNumber := 2, nominal := 50, count := 3 } 120 =
      ({ boxNumber := 2, nominal := 50, count := 3 - min 3 (120 / 50) },
        min 3 (120 / 50) * 50, min 3 (120 / 50)) ∧
    Box.withdraw { boxNumber := 2, nominal := 50, count := 3 } 40 =
      ({ boxNumber := 2, nominal := 50, count := 3 }, 0, 0) :=
  ⟨by decide,
   (box_withdraw_result { boxNumber := 2, nominal := 50, count := 3 } 120 (by decide)).2.1
     (by decide),
   (box_withdraw_result { boxNumber := 2, nominal := 50, count := 3 } 40 (by decide)).1
     (by decide)⟩

/-! ## Positions and identifiers -/

theorem numbered_of_wf (atm : ATM) (hwf : atm.WF) : Numbered atm.boxes := by
  intro j h
  have hlen : atm.boxes.length = 6 := by
    have := congrArg List.length hwf
    simpa using this
  have hj : (atm.boxes.map Box.boxNumber)[j]? = ([1, 2, 3, 4, 5, 6] : List Int)[j]? := by
    rw [hwf]
  rw [List.getElem?_map, List.getElem?_eq_getElem h] at hj
  have hj6 : j < 6 := by omega
  interval_cases j <;> simp at hj <;> simp [hj]

theorem length_of_wf (atm : ATM) (hwf : atm.WF) : atm.boxes.length = 6 := by
  have := congrArg List.length hwf
  simpa using this

theorem set_eq_map (boxes : List Box) (hN : Numbered boxes) (j : Nat) (hj : j < boxes.length)
    (g : Box → Box) :
    boxes.set j (g boxes[j]) =
      boxes.map (fun x => if x.boxNumber = (j : Int) + 1 then g x else x) := by
  apply List.ext_getElem
  · simp
  · intro n h1 h2
    rw [List.getElem_set, List.getElem_map]
    have hn : n < boxes.length := by simpa using h1
    rw [hN n hn]
    by_cases hjn : j = n
    · subst hjn; simp
    · have : ¬ ((n : Int) + 1 = (j : Int) + 1) := by omega
      simp [hjn, this]

theorem subscript_in_range (boxes : List Box) (i : Int)
    (h0 : 1 ≤ i) (h1 : i ≤ boxes.length) :
    ∃ hlt : (i - 1).toNat < boxes.length,
      subscript boxes (i - 1) = some boxes[(i - 1).toNat] ∧
      (((i - 1).toNat : Nat) : Int) + 1 = i := by
  have hlt : (i - 1).toNat < boxes.length := by omega
  refine ⟨hlt, ?_, by omega⟩
  have : ¬ (i - 1 < 0) := by omega
  simp [subscript, this, List.getElem?_eq_getElem hlt]

/-! ## Dispenser load -/

theorem box_load_ok (b : Box) (d c : Int) (hc : 0 ≤ c ∧ c ≤ 100) (hd : allowedNominal d) :
    b.load d c = ({ boxNumber := b.boxNumber, nominal := d, count := c }, .ok ()) := by
  have h1 : ¬ (c < 0 ∨ c > 100) := by omega
  have h2 : ¬ (d ≠ 10 ∧ d ≠ 20 ∧ d ≠ 50 ∧ d ≠ 100) := by
    unfold allowedNominal at hd; omega
  simp [Box.load, h1, h2]

theorem box_load_error_keeps (b : Box) (d c : Int) (e : Err)
    (h : (b.load d c).2 = .error e) : (b.load d c).1 = b := by
  unfold Box.load at h ⊢
  split
  · rfl
  · split
    · rfl
    · rename_i h2 h3
      simp [h2, h3] at h

theorem loadDecoded_eq_map (atm : ATM) (i d c : Int) (hwf : atm.WF)
    (hi : 1 ≤ i ∧ i ≤ 6) (hd : allowedNominal d) (hc : 0 ≤ c ∧ c ≤ 100) :
    atm.loadDecoded i d c =
      ({ boxes := atm.boxes.map (fun b =>
          if b.boxNumber = i then { boxNumber := b.boxNumber, nominal := d, count := c }
          else b) }, .ok ()) := by
  have hN := numbered_of_wf atm hwf
  have hlen := length_of_wf atm hwf
  obtain ⟨hlt, hs, hidx⟩ := subscript_in_range atm.boxes i hi.1 (by omega)
  have h1 : ¬ (i < 1 ∨ i > 6) := by omega
  have hl := box_load_ok atm.boxes[(i - 1).toNat] d c hc hd
  simp only [ATM.loadDecoded, h1, if_false, hs, hl]
  have := set_eq_map atm.boxes hN (i - 1).toNat hlt
    (fun b => { boxNumber := b.boxNumber, nominal := d, count := c })
  simp only [hidx] at this
  rw [this]

theorem wf_map_keep (atm : ATM) (hwf : atm.WF) (g : Box → Box)
    (hg : ∀ b, (g b).boxNumber = b.boxNumber) : ATM.WF { boxes := atm.boxes.map g } := by
  unfold ATM.WF at hwf ⊢
  rw [List.map_map]
  have : Box.boxNumber ∘ g = Box.boxNumber := by
    funext b; exact hg b
  rw [this, hwf]

/-- C7: whenever the dispenser load fails, with whatever error, the dispenser state
after the request is the state before it: no container's denomination or count
changes. -/
theorem load_atomic (atm : ATM) (boxNo nominal count : Int) (e : Err)
    (h : (atm.loadDecoded boxNo nominal count).2 = .error e) :
    (atm.loadDecoded boxNo nominal count).1 = atm := by
  by_cases h1 : boxNo < 1 ∨ boxNo > 6
  · simp [ATM.loadDecoded, h1]
  · simp only [ATM.loadDecoded, h1, if_false] at h ⊢
    cases hs : subscript atm.boxes (boxNo - 1) with
    | none => simp
    | some box =>
      simp only [hs] at h ⊢
      rw [box_load_error_keeps box nominal count e h, subscript_set_self _ _ _ hs]

/-- Instances of `load_atomic`: the three failing loads (box 7; denomination 30; count
101) on a dispenser whose box 1 holds 5 × 20 leave it unchanged. -/
theorem load_atomic_witness :
    ((ATM.new.loadDecoded 1 20 5).1.loadDecoded 7 20 5).2 = .error .InvalidContainer ∧
    ((ATM.new.loadDecoded 1 20 5).1.loadDecoded 7 20 5).1 = (ATM.new.loadDecoded 1 20 5).1 ∧
    ((ATM.new.loadDecoded 1 20 5).1.loadDecoded 1 30 5).1 = (ATM.new.loadDecoded 1 20 5).1 ∧
    ((ATM.new.loadDecoded 1 20 5).1.loadDecoded 1 50 101).1 = (ATM.new.loadDecoded 1 20 5).1 :=
  ⟨rfl,
   load_atomic (ATM.new.loadDecoded 1 20 5).1 7 20 5 .InvalidContainer rfl,
   load_atomic (ATM.new.loadDecoded 1 20 5).1 1 30 5 .InvalidDenomination rfl,
   load_atomic (ATM.new.loadDecoded 1 20 5).1 1 50 101 .InvalidCount rfl⟩

/-- C8: on a dispenser with boxes numbered 1 to 6, a load of box `i` in 1..6 with an
allowed denomination `d` and a count `c` in [0, 100] succeeds; afterwards the box
numbered `i` holds exactly `(d, c)` whatever it held before and every other box is
unchanged; the collection is still numbered 1 to 6; and a second valid load of the
same box leaves the same state as that second load alone. -/
theorem load_overwrite_frame (atm : ATM) (i d c : Int) (hwf : atm.WF)
    (hi : 1 ≤ i ∧ i ≤ 6) (hd : allowedNominal d) (hc : 0 ≤ c ∧ c ≤ 100) :
    atm.loadDecoded i d c =
      ({ boxes := atm.boxes.map (fun b =>
          if b.boxNumber = i then { boxNumber := b.boxNumber, nominal := d, count := c }
          else b) }, .ok ()) ∧
    (atm.loadDecoded i d c).1.WF ∧
    { boxNumber := i, nominal := d, count := c } ∈ (atm.loadDecoded i d c).1.boxes ∧
    ∀ d2 c2 : Int, allowedNominal d2 → 0 ≤ c2 ∧ c2 ≤ 100 →
      (atm.loadDecoded i d c).1.loadDecoded i d2 c2 = atm.loadDecoded i d2 c2 := by
  have h1 := loadDecoded_eq_map atm i d c hwf hi hd hc
  have hwf1 : (atm.loadDecoded i d c).1.WF := by
    rw [h1]
    apply wf_map_keep atm hwf
    intro b; split <;> rfl
  refine ⟨h1, hwf1, ?_, ?_⟩
  · have hlen := length_of_wf _ hwf
    obtain ⟨hlt, -, hidx⟩ := subscript_in_range atm.boxes i hi.1 (by omega)
    have hnum := numbered_of_wf _ hwf _ hlt
    rw [hidx] at hnum
    rw [h1, List.mem_map]
    exact ⟨atm.boxes[(i - 1).toNat], List.getElem_mem hlt, by rw [if_pos hnum, hnum]⟩
  · intro d2 c2 hd2 hc2
    rw [loadDecoded_eq_map _ i d2 c2 hwf1 hi hd2 hc2, loadDecoded_eq_map atm i d2 c2 hwf hi hd2 hc2,
      h1]
    simp only [List.map_map]
    congr 2
    apply List.map_congr_left
    intro b _
    simp only [Function.comp]
    split <;> simp_all

/-- Instance of `load_overwrite_frame`: box 2, first loaded with 50 × 7, is loaded with
20 × 3; only the pair (20, 3) remains in box 2 and the other five boxes are as
before. -/
theorem load_overwrite_frame_witness :
    (ATM.new.loadDecoded 2 50 7).1.WF ∧ allowedNominal 20 ∧
    ((ATM.new.loadDecoded 2 50 7).1.loadDecoded 2 20 3) =
      ({ boxes := [Box.new 1, { boxNumber := 2, nominal := 20, count := 3 }, Box.new 3,
          Box.new 4, Box.new 5, Box.new 6] }, .ok ()) :=
  ⟨by decide, by decide,
   (load_overwrite_frame (ATM.new.loadDecoded 2 50 7).1 2 20 3 (by decide)
    (by decide) (by decide) (by decide)).1⟩

/-- C9: a load whose identifier is outside [1, 6] fails with InvalidContainer for every
state, denomination and count, leaving the state as it was; and on a collection of
six boxes no load, whatever its identifier, takes a subscript outside the
collection. -/
theorem load_invalid_container (atm : ATM) (boxNo nominal count : Int) :
    ((boxNo < 1 ∨ 6 < boxNo) →
      atm.loadDecoded boxNo nominal count = (atm, .error .InvalidContainer)) ∧
    (atm.boxes.length = 6 →
      (atm.loadDecoded boxNo nominal count).2 ≠ .error .OutOfRange) := by
  constructor
  · intro h
    have h1 : boxNo < 1 ∨ boxNo > 6 := by omega
    simp [ATM.loadDecoded, h1]
  · intro hlen h
    by_cases h1 : boxNo < 1 ∨ boxNo > 6
    · simp [ATM.loadDecoded, h1] at h
    · obtain ⟨box, hs, -⟩ := subscript_isSome atm.boxes (boxNo - 1) (by omega) (by omega)
      simp only [ATM.loadDecoded, h1, if_false, hs] at h
      unfold Box.load at h
      split at h
      · cases h
      · split at h <;> cases h

/-- Instances of `load_invalid_container`: identifiers 0 and 7 with otherwise invalid
fields are rejected as InvalidContainer, and a load of box 6 stays inside the
collection. -/
theorem load_invalid_container_witness :
    ATM.new.loadDecoded 0 7 101 = (ATM.new, .error .InvalidContainer) ∧
    ATM.new.loadDecoded 7 10 5 = (ATM.new, .error .InvalidContainer) ∧
    (ATM.new.loadDecoded 6 10 5).2 ≠ .error .OutOfRange :=
  ⟨(load_invalid_container ATM.new 0 7 101).1 (by decide),
   (load_invalid_container ATM.new 7 10 5).1 (by decide),
   (load_invalid_container ATM.new 6 10 5).2 rfl⟩

/-! ## Functions that meet the contract of the sort -/

theorem insertBox_perm (x : Box) (l : List Box) : (insertBox x l).Perm (x :: l) := by
  induction l with
  | nil => simp [insertBox]
  | cons y ys ih =>
    unfold insertBox
    split
    · exact List.Perm.refl _
    · exact (ih.cons y).trans (List.Perm.swap x y ys)

theorem foldl_insertBox_perm (l acc : List Box) :
    (l.foldl (fun acc b => insertBox b acc) acc).Perm (l ++ acc) := by
  induction l generalizing acc with
  | nil => simp
  | cons x xs ih =>
    simp only [List.foldl_cons, List.cons_append]
    exact (ih _).trans (((insertBox_perm x acc).append_left xs).trans List.perm_middle)

theorem stableSort_perm (boxes : List Box) : (stableSort boxes).Perm boxes := by
  have := foldl_insertBox_perm boxes []
  simpa [stableSort] using this

theorem insertBox_mem (x : Box) (l : List Box) (b : Box) :
    b ∈ insertBox x l ↔ b = x ∨ b ∈ l := by
  rw [(insertBox_perm x l).mem_iff, List.mem_cons]

theorem insertBox_descending (x : Box) (l : List Box) (h : Descending l) :
    Descending (insertBox x l) := by
  unfold Descending at h ⊢
  induction l with
  | nil => simp [insertBox]
  | cons y ys ih =>
    rw [List.pairwise_cons] at h
    unfold insertBox
    split
    · rename_i hgt
      rw [List.pairwise_cons]
      refine ⟨?_, List.pairwise_cons.mpr h⟩
      intro b hb
      rcases List.mem_cons.mp hb with hby | hbys
      · rw [hby]; omega
      · have := h.1 b hbys
        omega
    · rename_i hle
      rw [List.pairwise_cons]
      refine ⟨?_, ih h.2⟩
      intro b hb
      rcases (insertBox_mem x ys b).mp hb with hbx | hbys
      · rw [hbx]; omega
      · exact h.1 b hbys

theorem foldl_insertBox_descending (l acc : List Box) (h : Descending acc) :
    Descending (l.foldl (fun acc b => insertBox b acc) acc) := by
  induction l generalizing acc with
  | nil => exact h
  | cons x xs ih => exact ih _ (insertBox_descending x acc h)

theorem stableSort_descending (boxes : List Box) : Descending (stableSort boxes) :=
  foldl_insertBox_descending boxes [] List.Pairwise.nil

theorem stableSort_contract : SortContract stableSort :=
  fun boxes => ⟨stableSort_perm boxes, stableSort_descending boxes⟩

theorem insertBoxFront_perm (x : Box) (l : List Box) : (insertBoxFront x l).Perm (x :: l) := by
  induction l with
  | nil => simp [insertBoxFront]
  | cons y ys ih =>
    unfold insertBoxFront
    split
    · exact List.Perm.refl _
    · exact (ih.cons y).trans (List.Perm.swap x y ys)

theorem foldl_insertBoxFront_perm (l acc : List Box) :
    (l.foldl (fun acc b => insertBoxFront b acc) acc).Perm (l ++ acc) := by
  induction l generalizing acc with
  | nil => simp
  | cons x xs ih =>
    simp only [List.foldl_cons, List.cons_append]
    exact (ih _).trans (((insertBoxFront_perm x acc).append_left xs).trans List.perm_middle)

theorem insertBoxFront_mem (x : Box) (l : List Box) (b : Box) :
    b ∈ insertBoxFront x l ↔ b = x ∨ b ∈ l := by
  rw [(insertBoxFront_perm x l).mem_iff, List.mem_cons]

theorem insertBoxFront_descending (x : Box) (l : List Box) (h : Descending l) :
    Descending (insertBoxFront x l) := by
  unfold Descending at h ⊢
  induction l with
  | nil => simp [insertBoxFront]
  | cons y ys ih =>
    rw [List.pairwise_cons] at h
    unfold insertBoxFront
    split
    · rename_i hgt
      rw [List.pairwise_cons]
      refine ⟨?_, List.pairwise_cons.mpr h⟩
      intro b hb
      rcases List.mem_cons.mp hb with hby | hbys
      · rw [hby]; omega
      · have := h.1 b hbys
        omega
    · rename_i hle
      rw [List.pairwise_cons]
      refine ⟨?_, ih h.2⟩
      intro b hb
      rcases (insertBoxFront_mem x ys b).mp hb with hbx | hbys
      · rw [hbx]; omega
      · exact h.1 b hbys

theorem foldl_insertBoxFront_descending (l acc : List Box) (h : Descending acc) :
    Descending (l.foldl (fun acc b => insertBoxFront b acc) acc) := by
  induction l generalizing acc with
  | nil => exact h
  | cons x xs ih => exact ih _ (insertBoxFront_descending x acc h)

theorem tiesFrontSort_contract : SortContract tiesFrontSort := by
  intro boxes
  constructor
  · have := foldl_insertBoxFront_perm boxes []
    simpa [tiesFrontSort] using this
  · exact foldl_insertBoxFront_descending boxes [] List.Pairwise.nil


/-! ## Withdrawal: failure paths -/

/-- C1: a withdrawal that fails with InsufficientFunds leaves the dispenser state exactly
as it was, for every state and every amount.
The sort may be any function at all. -/
theorem withdraw_insufficient_atomic (sort : List Box → List Box) (atm : ATM) (amount : Int)
    (h : (atm.withdrawDecoded sort amount).2 = .error .InsufficientFunds) :
    (atm.withdrawDecoded sort amount).1 = atm := by
  by_cases h1 : amount > 3000
  · simp [ATM.withdrawDecoded, h1]
  · by_cases h2 : (previewLoop (sort atm.boxes) amount).2 > 0
    · simp [ATM.withdrawDecoded, h1, h2]
    · simp only [ATM.withdrawDecoded, h1, h2, if_false] at h
      cases commitLoop_error _ _ _ h

/-- Instance of `withdraw_insufficient_atomic`: with 50 × 1 in box 1 and 20 × 3 in box 2
a withdrawal of 60 fails with InsufficientFunds and both boxes keep their notes. -/
theorem withdraw_insufficient_atomic_witness :
    (((ATM.new.loadDecoded 1 50 1).1.loadDecoded 2 20 3).1.withdrawDecoded stableSort 60).2 =
      .error .InsufficientFunds ∧
    (((ATM.new.loadDecoded 1 50 1).1.loadDecoded 2 20 3).1.withdrawDecoded stableSort 60).1 =
      ((ATM.new.loadDecoded 1 50 1).1.loadDecoded 2 20 3).1 :=
  ⟨rfl, withdraw_insufficient_atomic stableSort ((ATM.new.loadDecoded 1 50 1).1.loadDecoded 2 20 3).1 60 rfl⟩

/-- C4: the withdrawal fails with AmountTooLarge exactly when the amount exceeds 3000,
for every state, and a withdrawal failing this way leaves the state unchanged.
The sort may be any function at all. -/
theorem withdraw_ceiling (sort : List Box → List Box) (atm : ATM) (amount : Int) :
    ((atm.withdrawDecoded sort amount).2 = .error .AmountTooLarge ↔ amount > 3000) ∧
    ((atm.withdrawDecoded sort amount).2 = .error .AmountTooLarge →
      (atm.withdrawDecoded sort amount).1 = atm) := by
  by_cases h1 : amount > 3000
  · simp [ATM.withdrawDecoded, h1]
  · have hne : (atm.withdrawDecoded sort amount).2 ≠ .error .AmountTooLarge := by
      intro h
      by_cases h2 : (previewLoop (sort atm.boxes) amount).2 > 0
      · simp [ATM.withdrawDecoded, h1, h2] at h
      · simp only [ATM.withdrawDecoded, h1, h2, if_false] at h
        cases commitLoop_error _ _ _ h
    exact ⟨⟨fun h => absurd h hne, fun h => absurd h h1⟩, fun h => absurd h hne⟩

/-- Instances of `withdraw_ceiling`: on a dispenser holding 100 × 100 in box 1, 3001 is
rejected as too large with the state kept, and 3000 is not rejected as too large. -/
theorem withdraw_ceiling_witness :
    ((ATM.new.loadDecoded 1 100 100).1.withdrawDecoded stableSort 3001).2 = .error .AmountTooLarge ∧
    ((ATM.new.loadDecoded 1 100 100).1.withdrawDecoded stableSort 3001).1 =
      (ATM.new.loadDecoded 1 100 100).1 ∧
    ((ATM.new.loadDecoded 1 100 100).1.withdrawDecoded stableSort 3000).2 ≠ .error .AmountTooLarge :=
  ⟨(withdraw_ceiling stableSort (ATM.new.loadDecoded 1 100 100).1 3001).1.2 (by decide),
   (withdraw_ceiling stableSort (ATM.new.loadDecoded 1 100 100).1 3001).2
     ((withdraw_ceiling stableSort (ATM.new.loadDecoded 1 100 100).1 3001).1.2 (by decide)),
   fun h => absurd ((withdraw_ceiling stableSort (ATM.new.loadDecoded 1 100 100).1 3000).1.1 h)
     (by decide)⟩

/-! ## Withdrawal: the preview -/

theorem previewLoop_value (l : List Box) (r : Int) :
    planValue (previewLoop l r).1 + (previewLoop l r).2 = r := by
  induction l generalizing r with
  | nil => simp [previewLoop, planValue]
  | cons box rest ih =>
    unfold previewLoop
    split
    · exact ih r
    · simp only
      split
      · split
        · simp [planValue]; ring
        · have := ih (r - min box.count (r.tdiv box.nominal) * box.nominal)
          simp only [planValue, List.map_cons, List.sum_cons] at this ⊢
          linarith
      · split
        · simp [planValue]
        · exact ih r

theorem previewLoop_nonneg (l : List Box) (r : Int) (hl : ∀ b ∈ l, 0 ≤ b.nominal)
    (hr : 0 ≤ r) : 0 ≤ (previewLoop l r).2 := by
  induction l generalizing r with
  | nil => simpa [previewLoop] using hr
  | cons box rest ih =>
    have hrest : ∀ b ∈ rest, 0 ≤ b.nominal := fun b hb => hl b (List.mem_cons_of_mem _ hb)
    have hbox : 0 ≤ box.nominal := hl box (List.mem_cons_self _ _)
    unfold previewLoop
    split
    · exact ih r hrest hr
    · rename_i hne
      have hle : min box.count (r.tdiv box.nominal) * box.nominal ≤ r := by
        have h1 : min box.count (r.tdiv box.nominal) ≤ r / box.nominal := by
          rw [← Int.tdiv_eq_ediv hr hbox]; exact min_le_right _ _
        calc min box.count (r.tdiv box.nominal) * box.nominal
            ≤ (r / box.nominal) * box.nominal := Int.mul_le_mul_of_nonneg_right h1 hbox
          _ ≤ r := Int.ediv_mul_le r hne
      simp only
      split
      · split
        · simp only; omega
        · exact ih _ hrest (by omega)
      · split
        · exact hr
        · exact ih r hrest hr

theorem previewLoop_entries (l : List Box) (r : Int) :
    ∀ t ∈ (previewLoop l r).1, ∃ b ∈ l, b.boxNumber = t.1 ∧ b.nominal = t.2.1 ∧
      b.nominal ≠ 0 ∧ 0 < t.2.2 ∧ t.2.2 ≤ b.count := by
  induction l generalizing r with
  | nil => simp [previewLoop]
  | cons box rest ih =>
    have hlift : ∀ (r2 : Int), ∀ t ∈ (previewLoop rest r2).1, ∃ b ∈ box :: rest,
        b.boxNumber = t.1 ∧ b.nominal = t.2.1 ∧ b.nominal ≠ 0 ∧ 0 < t.2.2 ∧
        t.2.2 ≤ b.count := by
      intro r2 t ht
      obtain ⟨b, hb, hrest⟩ := ih r2 t ht
      exact ⟨b, List.mem_cons_of_mem _ hb, hrest⟩
    have hhead : ∀ t : Entry, 0 < min box.count (r.tdiv box.nominal) → box.nominal ≠ 0 →
        t = (box.boxNumber, box.nominal, min box.count (r.tdiv box.nominal)) →
        ∃ b ∈ box :: rest, b.boxNumber = t.1 ∧ b.nominal = t.2.1 ∧ b.nominal ≠ 0 ∧
          0 < t.2.2 ∧ t.2.2 ≤ b.count := by
      intro t hpos hne ht
      subst ht
      exact ⟨box, List.mem_cons_self _ _, rfl, rfl, hne, hpos, min_le_left _ _⟩
    unfold previewLoop
    split
    · exact hlift r
    · rename_i hne
      simp only
      split
      · rename_i hpos
        split
        · intro t ht
          simp only [List.mem_singleton] at ht
          exact hhead t hpos hne ht
        · intro t ht
          simp only [List.mem_cons] at ht
          rcases ht with ht | ht
          · exact hhead t hpos hne ht
          · exact hlift _ t ht
      · split
        · intro t ht; simp at ht
        · exact hlift r

theorem previewLoop_ids (l : List Box) (r : Int) :
    ((previewLoop l r).1.map (fun t => t.1)).Sublist (l.map Box.boxNumber) := by
  induction l generalizing r with
  | nil => simp [previewLoop]
  | cons box rest ih =>
    unfold previewLoop
    split
    · exact (ih r).cons _
    · simp only
      split
      · split
        · simp only [List.map_cons, List.map_nil]
          exact (List.nil_sublist _).cons₂ _
        · simp only [List.map_cons]
          exact (ih _).cons₂ _
      · split
        · simp
        · exact (ih r).cons _

/-! ## Withdrawal: the commit -/

theorem box_withdraw_exact (b : Box) (u : Int) (hn : 0 < b.nominal) (hu : 0 < u)
    (hc : u ≤ b.count) :
    b.withdraw (b.nominal * u) =
      ({ boxNumber := b.boxNumber, nominal := b.nominal, count := b.count - u },
        b.nominal * u, u) := by
  have hg : ¬ (b.nominal = 0 ∨ b.count = 0 ∨ b.nominal * u < b.nominal) := by
    have : b.nominal * 1 ≤ b.nominal * u := Int.mul_le_mul_of_nonneg_left (by omega) hn.le
    omega
  have hdiv : (b.nominal * u).tdiv b.nominal = u := Int.mul_tdiv_cancel_left u (by omega)
  simp only [Box.withdraw, hg, if_false, hdiv, min_eq_right hc]
  rw [Int.mul_comm u b.nominal]

theorem planNotes_cons (t : Entry) (ts : List Entry) (id : Int) :
    planNotes (t :: ts) id = (if t.1 = id then t.2.2 else 0) + planNotes ts id := by
  unfold planNotes
  by_cases h : t.1 = id <;> simp [List.filter_cons, h]

theorem planNotes_absent (plan : List Entry) (id : Int)
    (h : id ∉ plan.map (fun t => t.1)) : planNotes plan id = 0 := by
  induction plan with
  | nil => simp [planNotes]
  | cons t ts ih =>
    rw [List.map_cons, List.mem_cons, not_or] at h
    have hne : ¬ (t.1 = id) := fun heq => h.1 heq.symm
    rw [planNotes_cons, ih h.2]
    simp [hne]

theorem planNotes_present (plan : List Entry) (hnd : (plan.map (fun t => t.1)).Nodup) :
    ∀ t ∈ plan, planNotes plan t.1 = t.2.2 := by
  induction plan with
  | nil => simp
  | cons t ts ih =>
    rw [List.map_cons, List.nodup_cons] at hnd
    intro t2 ht2
    rw [planNotes_cons]
    rcases List.mem_cons.mp ht2 with heq | hmem
    · subst heq
      rw [planNotes_absent ts t2.1 hnd.1]
      simp
    · have hne : ¬ (t.1 = t2.1) := by
        intro heq
        apply hnd.1
        rw [List.mem_map]
        exact ⟨t2, hmem, heq.symm⟩
      rw [ih hnd.2 t2 hmem]
      simp [hne]

theorem numbered_map_keep (boxes : List Box) (hN : Numbered boxes) (g : Box → Box)
    (hg : ∀ b, (g b).boxNumber = b.boxNumber) : Numbered (boxes.map g) := by
  intro j h
  have hj : j < boxes.length := by simpa using h
  rw [List.getElem_map, hg, hN j hj]

theorem commitLoop_spec (plan : List Entry) (boxes : List Box) (hN : Numbered boxes)
    (hnd : (plan.map (fun t => t.1)).Nodup)
    (hent : ∀ t ∈ plan, ∃ b ∈ boxes, b.boxNumber = t.1 ∧ b.nominal = t.2.1 ∧
      0 < b.nominal ∧ 0 < t.2.2 ∧ t.2.2 ≤ b.count) :
    commitLoop plan boxes =
      (boxes.map (fun b =>
        { boxNumber := b.boxNumber, nominal := b.nominal,
          count := b.count - planNotes plan b.boxNumber }), .ok plan) := by
  induction plan generalizing boxes with
  | nil =>
    simp [commitLoop, planNotes]
  | cons t ts ih =>
    obtain ⟨b, hb, hnum, hnom, hpos, hu, hcnt⟩ := hent t (List.mem_cons_self _ _)
    obtain ⟨j, hj, hbj⟩ := List.getElem_of_mem hb
    have hid : t.1 = (j : Int) + 1 := by rw [← hnum, ← hbj, hN j hj]
    have hidx : (t.1 - 1).toNat = j := by omega
    have hsub : subscript boxes (t.1 - 1) = some b := by
      have : ¬ (t.1 - 1 < 0) := by omega
      simp [subscript, this, hidx, List.getElem?_eq_getElem hj, hbj]
    have hw : (b.withdraw (t.2.1 * t.2.2)).1 =
        { boxNumber := b.boxNumber, nominal := b.nominal, count := b.count - t.2.2 } := by
      rw [← hnom, box_withdraw_exact b t.2.2 hpos hu hcnt]
    have hset := set_eq_map boxes hN j hj
      (fun x => { boxNumber := x.boxNumber, nominal := x.nominal, count := x.count - t.2.2 })
    simp only [hbj] at hset
    rw [List.map_cons, List.nodup_cons] at hnd
    have hN1 := numbered_map_keep boxes hN
      (fun x => if x.boxNumber = (j : Int) + 1 then
        { boxNumber := x.boxNumber, nominal := x.nominal, count := x.count - t.2.2 } else x)
      (by intro x; simp only; split <;> rfl)
    have hent1 : ∀ t2 ∈ ts, ∃ b2 ∈ boxes.map (fun x => if x.boxNumber = (j : Int) + 1 then
        { boxNumber := x.boxNumber, nominal := x.nominal, count := x.count - t.2.2 } else x),
        b2.boxNumber = t2.1 ∧ b2.nominal = t2.2.1 ∧ 0 < b2.nominal ∧ 0 < t2.2.2 ∧
          t2.2.2 ≤ b2.count := by
      intro t2 ht2
      obtain ⟨b2, hb2, hrest⟩ := hent t2 (List.mem_cons_of_mem _ ht2)
      have hne : ¬ (b2.boxNumber = (j : Int) + 1) := by
        intro heq
        apply hnd.1
        rw [List.mem_map]
        exact ⟨t2, ht2, by rw [hid, ← heq, hrest.1]⟩
      refine ⟨b2, ?_, hrest⟩
      rw [List.mem_map]
      exact ⟨b2, hb2, by simp [hne]⟩
    have hrec := ih _ hN1 hnd.2 hent1
    unfold commitLoop
    simp only [hsub, hw, hidx, hset, hrec, Except.map, List.map_map]
    congr 1
    apply List.map_congr_left
    intro x _
    simp only [Function.comp, planNotes_cons, hid]
    by_cases hx : x.boxNumber = (j : Int) + 1
    · simp [hx]; ring
    · have hx2 : ¬ ((j : Int) + 1 = x.boxNumber) := fun h => hx h.symm
      simp [hx, hx2]

/-! ## Withdrawal: success -/

theorem withdrawDecoded_ok {sort : List Box → List Box} (atm atm2 : ATM) (amount : Int) (plan : List Entry)
    (h : atm.withdrawDecoded sort amount = (atm2, .ok plan)) :
    amount ≤ 3000 ∧ (previewLoop (sort atm.boxes) amount).2 ≤ 0 ∧
      plan = (previewLoop (sort atm.boxes) amount).1 ∧
      commitLoop plan atm.boxes = (atm2.boxes, .ok plan) := by
  by_cases h1 : amount > 3000
  · simp [ATM.withdrawDecoded, h1] at h
  · by_cases h2 : (previewLoop (sort atm.boxes) amount).2 > 0
    · simp [ATM.withdrawDecoded, h1, h2] at h
    · simp only [ATM.withdrawDecoded, h1, h2, if_false, Prod.mk.injEq] at h
      obtain ⟨hst, hres⟩ := h
      have hp := commitLoop_ok _ _ _ hres
      refine ⟨by omega, by omega, hp, ?_⟩
      rw [hp, ← hst]
      exact Prod.ext rfl (by rw [hres, hp])

theorem preview_plan_facts {sort : List Box → List Box} (hS : SortContract sort)
    (atm : ATM) (hwf : atm.WF) (hinv : atm.Inv) (amount : Int) :
    ((previewLoop (sort atm.boxes) amount).1.map (fun t => t.1)).Nodup ∧
    ∀ t ∈ (previewLoop (sort atm.boxes) amount).1, ∃ b ∈ atm.boxes,
      b.boxNumber = t.1 ∧ b.nominal = t.2.1 ∧ 0 < b.nominal ∧ 0 < t.2.2 ∧
        t.2.2 ≤ b.count := by
  have hperm := (hS atm.boxes).1
  constructor
  · apply (previewLoop_ids (sort atm.boxes) amount).nodup
    rw [(hperm.map Box.boxNumber).nodup_iff, hwf]
    decide
  · intro t ht
    obtain ⟨b, hb, hnum, hnom, hne, hu, hc⟩ := previewLoop_entries _ _ t ht
    have hb2 : b ∈ atm.boxes := hperm.mem_iff.mp hb
    have hpos : 0 < b.nominal := by
      have := (hinv b hb2).1
      unfold allowedNominal at this
      omega
    exact ⟨b, hb2, hnum, hnom, hpos, hu, hc⟩

/-- C2: on a dispenser whose containers satisfy the invariant, a successful withdrawal
of a positive amount A commits a plan whose value, the sum of denomination × notes
over its entries, is exactly A.
The sort may be any function that meets `SortContract`. -/
theorem withdraw_sum_correct (sort : List Box → List Box) (hS : SortContract sort)
    (atm atm2 : ATM) (amount : Int) (plan : List Entry)
    (hinv : atm.Inv) (hpos : 0 < amount)
    (h : atm.withdrawDecoded sort amount = (atm2, .ok plan)) :
    planValue plan = amount := by
  obtain ⟨-, hrem, hplan, -⟩ := withdrawDecoded_ok atm atm2 amount plan h
  have hval := previewLoop_value (sort atm.boxes) amount
  have hnn : 0 ≤ (previewLoop (sort atm.boxes) amount).2 := by
    apply previewLoop_nonneg _ _ _ hpos.le
    intro b hb
    have hb2 : b ∈ atm.boxes := ((hS atm.boxes).1).mem_iff.mp hb
    have := (hinv b hb2).1
    unfold allowedNominal at this
    omega
  rw [hplan]
  omega

/-- Instance of `withdraw_sum_correct`: from the sample state (20 × 3 in box 1, 50 × 1
in box 2) a withdrawal of 70 succeeds with the plan one 50 and one 20, worth 70. -/
theorem withdraw_sum_correct_witness :
    sampleATM.Inv ∧
    (sampleATM.withdrawDecoded stableSort 70).2 = .ok [(2, 50, 1), (1, 20, 1)] ∧
    planValue [(2, 50, 1), (1, 20, 1)] = 70 :=
  ⟨by decide, rfl,
   withdraw_sum_correct stableSort stableSort_contract sampleATM (sampleATM.withdrawDecoded stableSort 70).1 70 [(2, 50, 1), (1, 20, 1)]
     (by decide) (by decide) rfl⟩

/-- C3: on a dispenser with boxes numbered 1 to 6 that satisfy the invariant, a
successful withdrawal leaves every box with its number and denomination unchanged and
with its count lowered by the notes the plan takes from it (0 when absent from the
plan: the plan names each box at most once, so a box in the plan loses the notes of
its entry and a box outside it loses none); each entry replayed through
`Box.withdraw` with value denomination × notes on its box extracts exactly the
planned notes.  On such a dispenser the commit never takes a subscript outside the
collection.
The sort may be any function that meets `SortContract`. -/
theorem withdraw_commit_matches_plan (sort : List Box → List Box) (hS : SortContract sort)
    (atm atm2 : ATM) (amount : Int) (plan : List Entry)
    (hwf : atm.WF) (hinv : atm.Inv)
    (h : atm.withdrawDecoded sort amount = (atm2, .ok plan)) :
    atm2.boxes = atm.boxes.map (fun b =>
      { boxNumber := b.boxNumber, nominal := b.nominal,
        count := b.count - planNotes plan b.boxNumber }) ∧
    (plan.map (fun t => t.1)).Nodup ∧
    (∀ t ∈ plan, planNotes plan t.1 = t.2.2) ∧
    (∀ id : Int, id ∉ plan.map (fun t => t.1) → planNotes plan id = 0) ∧
    (∀ t ∈ plan, ∃ b ∈ atm.boxes, b.boxNumber = t.1 ∧ b.nominal = t.2.1 ∧
      b.withdraw (t.2.1 * t.2.2) =
        ({ boxNumber := b.boxNumber, nominal := b.nominal, count := b.count - t.2.2 },
          t.2.1 * t.2.2, t.2.2)) ∧
    ∀ a : Int, (atm.withdrawDecoded sort a).2 ≠ .error .OutOfRange := by
  obtain ⟨-, -, hplan, hcommit⟩ := withdrawDecoded_ok atm atm2 amount plan h
  have hN := numbered_of_wf atm hwf
  obtain ⟨hnd, hent⟩ := preview_plan_facts hS atm hwf hinv amount
  rw [← hplan] at hnd hent
  have hspec := commitLoop_spec plan atm.boxes hN hnd hent
  rw [hspec] at hcommit
  refine ⟨(Prod.mk.inj hcommit).1.symm, hnd, planNotes_present plan hnd,
    fun id hid => planNotes_absent plan id hid, ?_, ?_⟩
  · intro t ht
    obtain ⟨b, hb, hnum, hnom, hpos, hu, hc⟩ := hent t ht
    refine ⟨b, hb, hnum, hnom, ?_⟩
    rw [← hnom]
    exact box_withdraw_exact b t.2.2 hpos hu hc
  · intro a hbad
    by_cases h1 : a > 3000
    · simp [ATM.withdrawDecoded, h1] at hbad
    · by_cases h2 : (previewLoop (sort atm.boxes) a).2 > 0
      · simp [ATM.withdrawDecoded, h1, h2] at hbad
      · obtain ⟨hnd2, hent2⟩ := preview_plan_facts hS atm hwf hinv a
        simp only [ATM.withdrawDecoded, h1, h2, if_false,
          commitLoop_spec _ atm.boxes hN hnd2 hent2] at hbad
        cases hbad

/-- Instance of `withdraw_commit_matches_plan`: from the sample state a withdrawal of 90
succeeds with the plan one 50 from box 2 and two 20s from box 1; box 1 keeps one
note, box 2 none, and boxes 3 to 6 are untouched. -/
theorem withdraw_commit_matches_plan_witness :
    sampleATM.WF ∧ sampleATM.Inv ∧
    sampleATM.withdrawDecoded stableSort 90 =
      ({ boxes := [{ boxNumber := 1, nominal := 20, count := 1 },
                   { boxNumber := 2, nominal := 50, count := 0 },
                   Box.new 3, Box.new 4, Box.new 5, Box.new 6] },
        .ok [(2, 50, 1), (1, 20, 2)]) ∧
    (sampleATM.withdrawDecoded stableSort 90).1.boxes = sampleATM.boxes.map (fun b =>
      { boxNumber := b.boxNumber, nominal := b.nominal,
        count := b.count - planNotes [(2, 50, 1), (1, 20, 2)] b.boxNumber }) :=
  ⟨by decide, by decide, rfl,
   (withdraw_commit_matches_plan stableSort stableSort_contract sampleATM (sampleATM.withdrawDecoded stableSort 90).1 90
     [(2, 50, 1), (1, 20, 2)] (by decide) (by decide) rfl).1⟩


/-! ## The state invariant -/

theorem numbered_inj (boxes : List Box) (hN : Numbered boxes) (a b : Box)
    (ha : a ∈ boxes) (hb : b ∈ boxes) (h : a.boxNumber = b.boxNumber) : a = b := by
  obtain ⟨i, hi, hai⟩ := List.getElem_of_mem ha
  obtain ⟨j, hj, hbj⟩ := List.getElem_of_mem hb
  have h1 := hN i hi
  have h2 := hN j hj
  rw [hai] at h1
  rw [hbj] at h2
  have hij : i = j := by omega
  subst hij
  rw [← hai, ← hbj]

theorem loadDecoded_cases (atm : ATM) (boxNo nominal count : Int) :
    (atm.loadDecoded boxNo nominal count).1 = atm ∨
      ((1 ≤ boxNo ∧ boxNo ≤ 6) ∧ allowedNominal nominal ∧ 0 ≤ count ∧ count ≤ 100) := by
  by_cases hv : (1 ≤ boxNo ∧ boxNo ≤ 6) ∧ allowedNominal nominal ∧ 0 ≤ count ∧ count ≤ 100
  · exact Or.inr hv
  · left
    by_cases h1 : boxNo < 1 ∨ boxNo > 6
    · simp [ATM.loadDecoded, h1]
    · cases hs : subscript atm.boxes (boxNo - 1) with
      | none => simp [ATM.loadDecoded, h1, hs]
      | some box =>
        have hl : (box.load nominal count).1 = box := by
          unfold Box.load
          split
          · rfl
          · split
            · rfl
            · rename_i hc hd
              exfalso
              apply hv
              unfold allowedNominal
              omega
        simp only [ATM.loadDecoded, h1, if_false, hs, hl, subscript_set_self _ _ _ hs]

theorem loadDecoded_keeps_inv (atm : ATM) (boxNo nominal count : Int)
    (h : atm.WF ∧ atm.Inv) :
    (atm.loadDecoded boxNo nominal count).1.WF ∧ (atm.loadDecoded boxNo nominal count).1.Inv := by
  rcases loadDecoded_cases atm boxNo nominal count with hsame | ⟨hi, hd, hc⟩
  · rw [hsame]; exact h
  · rw [loadDecoded_eq_map atm boxNo nominal count h.1 hi hd hc]
    refine ⟨wf_map_keep atm h.1 _ (by intro b; split <;> rfl), ?_⟩
    intro b hb
    simp only [List.mem_map] at hb
    obtain ⟨a, ha, hab⟩ := hb
    split at hab
    · rw [← hab]
      exact ⟨Or.inr hd, hc.1, hc.2⟩
    · rw [← hab]; exact h.2 a ha

theorem planNotes_bounds (plan : List Entry) (boxes : List Box) (hN : Numbered boxes)
    (hnd : (plan.map (fun t => t.1)).Nodup)
    (hent : ∀ t ∈ plan, ∃ b ∈ boxes, b.boxNumber = t.1 ∧ b.nominal = t.2.1 ∧
      0 < b.nominal ∧ 0 < t.2.2 ∧ t.2.2 ≤ b.count)
    (b : Box) (hb : b ∈ boxes) (hcount : 0 ≤ b.count) :
    0 ≤ planNotes plan b.boxNumber ∧ planNotes plan b.boxNumber ≤ b.count := by
  by_cases hmem : b.boxNumber ∈ plan.map (fun t => t.1)
  · rw [List.mem_map] at hmem
    obtain ⟨t, ht, hid⟩ := hmem
    obtain ⟨b2, hb2, hnum, -, -, hu, hle⟩ := hent t ht
    have hbb : b2 = b := numbered_inj boxes hN b2 b hb2 hb (by rw [hnum, hid])
    rw [← hid, planNotes_present plan hnd t ht]
    rw [hbb] at hle
    omega
  · rw [planNotes_absent plan _ hmem]
    omega

theorem withdrawDecoded_cases {sort : List Box → List Box} (hS : SortContract sort)
    (atm : ATM) (hwf : atm.WF) (hinv : atm.Inv) (amount : Int) :
    atm.withdrawDecoded sort amount = (atm, .error .AmountTooLarge) ∨
    atm.withdrawDecoded sort amount = (atm, .error .InsufficientFunds) ∨
    atm.withdrawDecoded sort amount =
      ({ boxes := atm.boxes.map (fun b =>
          { boxNumber := b.boxNumber, nominal := b.nominal,
            count := b.count -
              planNotes (previewLoop (sort atm.boxes) amount).1 b.boxNumber }) },
        .ok (previewLoop (sort atm.boxes) amount).1) := by
  by_cases h1 : amount > 3000
  · left; simp [ATM.withdrawDecoded, h1]
  · by_cases h2 : (previewLoop (sort atm.boxes) amount).2 > 0
    · right; left; simp [ATM.withdrawDecoded, h1, h2]
    · right; right
      obtain ⟨hnd, hent⟩ := preview_plan_facts hS atm hwf hinv amount
      simp only [ATM.withdrawDecoded, h1, h2, if_false,
        commitLoop_spec _ atm.boxes (numbered_of_wf atm hwf) hnd hent]

theorem withdrawDecoded_keeps_inv {sort : List Box → List Box} (hS : SortContract sort)
    (atm : ATM) (amount : Int) (h : atm.WF ∧ atm.Inv) :
    (atm.withdrawDecoded sort amount).1.WF ∧ (atm.withdrawDecoded sort amount).1.Inv := by
  rcases withdrawDecoded_cases hS atm h.1 h.2 amount with hr | hr | hr
  · rw [hr]; exact h
  · rw [hr]; exact h
  · rw [hr]
    refine ⟨wf_map_keep atm h.1 _ (fun b => rfl), ?_⟩
    obtain ⟨hnd, hent⟩ := preview_plan_facts hS atm h.1 h.2 amount
    intro b hb
    simp only [List.mem_map] at hb
    obtain ⟨a, ha, hab⟩ := hb
    have hbd := planNotes_bounds _ atm.boxes (numbered_of_wf atm h.1) hnd hent a ha (h.2 a ha).2.1
    have hia := h.2 a ha
    rw [← hab]
    refine ⟨hia.1, ?_, ?_⟩
    · simp only; omega
    · simp only; have := hia.2.2; omega

theorem processCommand_keeps_inv {sort : List Box → List Box} (hS : SortContract sort)
    (atm : ATM) (cmd : List Char) (h : atm.WF ∧ atm.Inv) :
    (atm.processCommand sort cmd).1.WF ∧ (atm.processCommand sort cmd).1.Inv := by
  unfold ATM.processCommand
  split
  · exact h
  · rename_i c rest
    split
    · simp only [ATM.loadBox]
      split
      · exact loadDecoded_keeps_inv atm _ _ _ h
      · exact h
    · split
      · simp only [ATM.withdrawMoney]
        split
        · exact h
        · exact withdrawDecoded_keeps_inv hS atm _ h
      · split
        · exact h
        · exact h

theorem reachable_wf_inv {sort : List Box → List Box} (hS : SortContract sort)
    (atm : ATM) (h : Reachable sort atm) : atm.WF ∧ atm.Inv := by
  induction h with
  | start => exact ⟨by decide, by decide⟩
  | line atm cmd _ ih => exact processCommand_keeps_inv hS atm cmd ih
  | load atm b n c _ ih => exact loadDecoded_keeps_inv atm b n c ih
  | withdraw atm a _ ih => exact withdrawDecoded_keeps_inv hS atm a ih
  | status atm _ ih => exact ih

/-- C11: every state reachable from the initial dispenser by input lines, load requests,
withdrawal requests and status reports, successful or failing, still has exactly six
containers, numbered 1 to 6 in order, each with denomination 0, 10, 20, 50 or 100 and
a count within [0, 100].
The sort may be any function that meets `SortContract`. -/
theorem reachable_state_invariant (sort : List Box → List Box) (hS : SortContract sort)
    (atm : ATM) (h : Reachable sort atm) :
    atm.boxes.length = 6 ∧
    atm.boxes.map Box.boxNumber = [1, 2, 3, 4, 5, 6] ∧
    ∀ b ∈ atm.boxes,
      (b.nominal = 0 ∨ b.nominal = 10 ∨ b.nominal = 20 ∨ b.nominal = 50 ∨ b.nominal = 100) ∧
      0 ≤ b.count ∧ b.count ≤ 100 := by
  obtain ⟨hwf, hinv⟩ := reachable_wf_inv hS atm h
  exact ⟨length_of_wf atm hwf, hwf, fun b hb => hinv b hb⟩

/-- Instance of `reachable_state_invariant`: the state after the input lines
`L#1#100#5`, `W#300` and the rejected `L#9#10#1` is reachable; box 1 holds two notes
of 100 and the six boxes are numbered 1 to 6. -/
theorem reachable_state_invariant_witness :
    Reachable stableSort (((ATM.new.processCommand stableSort "L#1#100#5".toList).1.processCommand stableSort
      "W#300".toList).1.processCommand stableSort "L#9#10#1".toList).1 ∧
    (((ATM.new.processCommand stableSort "L#1#100#5".toList).1.processCommand stableSort
      "W#300".toList).1.processCommand stableSort "L#9#10#1".toList).1.boxes =
      [{ boxNumber := 1, nominal := 100, count := 2 }, Box.new 2, Box.new 3, Box.new 4,
        Box.new 5, Box.new 6] ∧
    (((ATM.new.processCommand stableSort "L#1#100#5".toList).1.processCommand stableSort
      "W#300".toList).1.processCommand stableSort "L#9#10#1".toList).1.boxes.map Box.boxNumber =
      [1, 2, 3, 4, 5, 6] :=
  ⟨.line _ _ (.line _ _ (.line _ _ .start)), by decide,
   (reachable_state_invariant stableSort stableSort_contract _ (.line _ _ (.line _ _ (.line _ _ .start)))).2.1⟩

/-! ## Withdrawal: the preview step by step -/

theorem previewLoop_cons_zero (b : Box) (rest : List Box) (r : Int) (h : b.nominal = 0) :
    previewLoop (b :: rest) r = previewLoop rest r := by
  rw [previewLoop]; simp [h]

theorem previewLoop_cons_skip (b : Box) (rest : List Box) (r : Int) (h : b.nominal ≠ 0)
    (hc : ¬ (min b.count (r.tdiv b.nominal) > 0)) (hr : r ≠ 0) :
    previewLoop (b :: rest) r = previewLoop rest r := by
  rw [previewLoop]; simp only [h, if_false, hc, hr]

theorem previewLoop_cons_stop (b : Box) (rest : List Box) (r : Int) (h : b.nominal ≠ 0)
    (hc : ¬ (min b.count (r.tdiv b.nominal) > 0)) (hr : r = 0) :
    previewLoop (b :: rest) r = ([], r) := by
  rw [previewLoop]; simp only [h, if_false, hc]; rw [if_pos hr]

theorem previewLoop_cons_last (b : Box) (rest : List Box) (r : Int) (h : b.nominal ≠ 0)
    (hc : min b.count (r.tdiv b.nominal) > 0)
    (hr : r - min b.count (r.tdiv b.nominal) * b.nominal = 0) :
    previewLoop (b :: rest) r =
      ([(b.boxNumber, b.nominal, min b.count (r.tdiv b.nominal))],
        r - min b.count (r.tdiv b.nominal) * b.nominal) := by
  rw [previewLoop]; simp only [h, if_false, hc, hr, if_true]

theorem previewLoop_cons_take (b : Box) (rest : List Box) (r : Int) (h : b.nominal ≠ 0)
    (hc : min b.count (r.tdiv b.nominal) > 0)
    (hr : r - min b.count (r.tdiv b.nominal) * b.nominal ≠ 0) :
    previewLoop (b :: rest) r =
      ((b.boxNumber, b.nominal, min b.count (r.tdiv b.nominal)) ::
          (previewLoop rest (r - min b.count (r.tdiv b.nominal) * b.nominal)).1,
        (previewLoop rest (r - min b.count (r.tdiv b.nominal) * b.nominal)).2) := by
  rw [previewLoop]; simp only [h, if_false, hc, hr, if_true]

theorem previewLoop_filter (l : List Box) (r : Int) :
    previewLoop (l.filter (fun b => b.nominal ≠ 0)) r = previewLoop l r := by
  induction l generalizing r with
  | nil => rfl
  | cons b rest ih =>
    by_cases h0 : b.nominal = 0
    · rw [previewLoop_cons_zero b rest r h0]
      simp only [List.filter_cons, h0, ne_eq, not_true_eq_false, decide_False]
      exact ih r
    · have hf : (b :: rest).filter (fun b => b.nominal ≠ 0) =
          b :: rest.filter (fun b => b.nominal ≠ 0) := by
        simp [List.filter_cons, h0]
      rw [hf]
      by_cases hc : min b.count (r.tdiv b.nominal) > 0
      · by_cases hr : r - min b.count (r.tdiv b.nominal) * b.nominal = 0
        · rw [previewLoop_cons_last b _ r h0 hc hr, previewLoop_cons_last b _ r h0 hc hr]
        · rw [previewLoop_cons_take b _ r h0 hc hr, previewLoop_cons_take b _ r h0 hc hr, ih]
      · by_cases hr : r = 0
        · rw [previewLoop_cons_stop b _ r h0 hc hr, previewLoop_cons_stop b _ r h0 hc hr]
        · rw [previewLoop_cons_skip b _ r h0 hc hr, previewLoop_cons_skip b _ r h0 hc hr, ih]

theorem descending_perm_unique (l1 l2 : List Box) (hp : l1.Perm l2) (h1 : Descending l1)
    (h2 : Descending l2) (hnd : (l2.map Box.nominal).Nodup) : l1 = l2 := by
  unfold Descending at h1 h2
  induction l2 generalizing l1 with
  | nil => exact hp.eq_nil
  | cons a t ih =>
    cases l1 with
    | nil => exact absurd hp.symm.eq_nil (by simp)
    | cons h t1 =>
      rw [List.pairwise_cons] at h1 h2
      rw [List.map_cons, List.nodup_cons] at hnd
      have hha : h = a := by
        by_contra hne
        have hh : h ∈ t := by
          rcases List.mem_cons.mp (hp.subset (List.mem_cons_self _ _)) with h3 | h3
          · exact absurd h3 hne
          · exact h3
        have ha : a ∈ t1 := by
          rcases List.mem_cons.mp (hp.symm.subset (List.mem_cons_self _ _)) with h3 | h3
          · exact absurd h3.symm hne
          · exact h3
        have hge1 := h2.1 h hh
        have hge2 := h1.1 a ha
        apply hnd.1
        rw [List.mem_map]
        exact ⟨h, hh, by omega⟩
      subst hha
      rw [ih t1 hp.cons_inv h1.2 h2.2 hnd.2]

theorem preview_sort_independent {sort sort2 : List Box → List Box} (hS : SortContract sort)
    (hS2 : SortContract sort2) (boxes : List Box)
    (hnd : ((boxes.filter (fun b => b.nominal ≠ 0)).map Box.nominal).Nodup) (r : Int) :
    previewLoop (sort boxes) r = previewLoop (sort2 boxes) r := by
  rw [← previewLoop_filter (sort boxes), ← previewLoop_filter (sort2 boxes)]
  have hp1 := (hS boxes).1.filter (fun b => decide (b.nominal ≠ 0))
  have hp2 := (hS2 boxes).1.filter (fun b => decide (b.nominal ≠ 0))
  have hd1 : Descending ((sort boxes).filter (fun b => b.nominal ≠ 0)) :=
    List.Pairwise.sublist (List.filter_sublist _) (hS boxes).2
  have hd2 : Descending ((sort2 boxes).filter (fun b => b.nominal ≠ 0)) :=
    List.Pairwise.sublist (List.filter_sublist _) (hS2 boxes).2
  have hnd2 : (((sort2 boxes).filter (fun b => b.nominal ≠ 0)).map Box.nominal).Nodup :=
    ((hp2.map Box.nominal).nodup_iff).mpr hnd
  rw [descending_perm_unique _ _ (hp1.trans hp2.symm) hd1 hd2 hnd2]

theorem withdrawDecoded_sort_independent {sort sort2 : List Box → List Box}
    (hS : SortContract sort) (hS2 : SortContract sort2) (atm : ATM)
    (hnd : ((atm.boxes.filter (fun b => b.nominal ≠ 0)).map Box.nominal).Nodup)
    (amount : Int) :
    atm.withdrawDecoded sort amount = atm.withdrawDecoded sort2 amount := by
  unfold ATM.withdrawDecoded
  rw [preview_sort_independent hS hS2 atm.boxes hnd amount]

/-! ## Worked example and greedy behaviour -/

/-- C12: from the initial dispenser with box 1 loaded 100 × 1, box 2 loaded 50 × 2 and
box 3 loaded 20 × 0, a withdrawal of 150 succeeds with the plan one 100 from box 1
then one 50 from box 2; box 1 is left with 0 notes, box 2 with 1 note, box 3 and the
unloaded boxes 4 to 6 are unchanged.  The same holds through the input lines.  This
is so for every sort function that meets the contract of `std::sort`. -/
theorem greedy_example (sort : List Box → List Box) (hS : SortContract sort) :
    (((ATM.new.loadDecoded 1 100 1).1.loadDecoded 2 50 2).1.loadDecoded 3 20 0).1 =
      { boxes := [{ boxNumber := 1, nominal := 100, count := 1 },
                  { boxNumber := 2, nominal := 50, count := 2 },
                  { boxNumber := 3, nominal := 20, count := 0 },
                  Box.new 4, Box.new 5, Box.new 6] } ∧
    (((ATM.new.loadDecoded 1 100 1).1.loadDecoded 2 50 2).1.loadDecoded 3 20 0).1.withdrawDecoded
        sort 150 =
      ({ boxes := [{ boxNumber := 1, nominal := 100, count := 0 },
                   { boxNumber := 2, nominal := 50, count := 1 },
                   { boxNumber := 3, nominal := 20, count := 0 },
                   Box.new 4, Box.new 5, Box.new 6] },
        .ok [(1, 100, 1), (2, 50, 1)]) ∧
    ((((ATM.new.processCommand sort "L#1#100#1".toList).1.processCommand sort
        "L#2#50#2".toList).1.processCommand sort "L#3#20#0".toList).1.processCommand sort
        "W#150".toList) =
      ({ boxes := [{ boxNumber := 1, nominal := 100, count := 0 },
                   { boxNumber := 2, nominal := 50, count := 1 },
                   { boxNumber := 3, nominal := 20, count := 0 },
                   Box.new 4, Box.new 5, Box.new 6] },
        .ok (.withdrawal [(1, 100, 1), (2, 50, 1)])) := by
  have hw : (((ATM.new.loadDecoded 1 100 1).1.loadDecoded 2 50 2).1.loadDecoded 3 20
      0).1.withdrawDecoded sort 150 =
      ({ boxes := [{ boxNumber := 1, nominal := 100, count := 0 },
                   { boxNumber := 2, nominal := 50, count := 1 },
                   { boxNumber := 3, nominal := 20, count := 0 },
                   Box.new 4, Box.new 5, Box.new 6] },
        .ok [(1, 100, 1), (2, 50, 1)]) := by
    rw [withdrawDecoded_sort_independent hS stableSort_contract _ (by decide) 150]
    rfl
  have hline : ((((ATM.new.processCommand sort "L#1#100#1".toList).1.processCommand sort
        "L#2#50#2".toList).1.processCommand sort "L#3#20#0".toList).1.processCommand sort
        "W#150".toList) =
      (((((ATM.new.loadDecoded 1 100 1).1.loadDecoded 2 50 2).1.loadDecoded 3 20
          0).1.withdrawDecoded sort 150).1,
        ((((ATM.new.loadDecoded 1 100 1).1.loadDecoded 2 50 2).1.loadDecoded 3 20
          0).1.withdrawDecoded sort 150).2.map Output.withdrawal) := rfl
  refine ⟨by decide, hw, ?_⟩
  rw [hline, hw]
  rfl

/-- Instances of `greedy_example`: with `stableSort` and with `tiesFrontSort` as the sort
the withdrawal of 150 gives the same plan and the same state. -/
theorem greedy_example_witness :
    SortContract stableSort ∧ SortContract tiesFrontSort ∧
    (((ATM.new.loadDecoded 1 100 1).1.loadDecoded 2 50 2).1.loadDecoded 3 20 0).1.withdrawDecoded
        stableSort 150 =
      ({ boxes := [{ boxNumber := 1, nominal := 100, count := 0 },
                   { boxNumber := 2, nominal := 50, count := 1 },
                   { boxNumber := 3, nominal := 20, count := 0 },
                   Box.new 4, Box.new 5, Box.new 6] },
        .ok [(1, 100, 1), (2, 50, 1)]) ∧
    (((ATM.new.loadDecoded 1 100 1).1.loadDecoded 2 50 2).1.loadDecoded 3 20 0).1.withdrawDecoded
        tiesFrontSort 150 =
      ({ boxes := [{ boxNumber := 1, nominal := 100, count := 0 },
                   { boxNumber := 2, nominal := 50, count := 1 },
                   { boxNumber := 3, nominal := 20, count := 0 },
                   Box.new 4, Box.new 5, Box.new 6] },
        .ok [(1, 100, 1), (2, 50, 1)]) :=
  ⟨stableSort_contract, tiesFrontSort_contract,
   (greedy_example stableSort stableSort_contract).2.1,
   (greedy_example tiesFrontSort tiesFrontSort_contract).2.1⟩

theorem previewLoop_small (l : List Box) (r : Int) (hr : 0 < r)
    (hl : ∀ b ∈ l, b.nominal = 0 ∨ r < b.nominal) : previewLoop l r = ([], r) := by
  induction l with
  | nil => rfl
  | cons box rest ih =>
    have hrest := ih (fun b hb => hl b (List.mem_cons_of_mem _ hb))
    unfold previewLoop
    split
    · exact hrest
    · rename_i hne
      have hlt : r < box.nominal := by
        rcases hl box (List.mem_cons_self _ _) with h | h
        · exact absurd h hne
        · exact h
      have hdiv : r.tdiv box.nominal = 0 := Int.tdiv_eq_zero_of_lt hr.le hlt
      have hcan : ¬ (min box.count (r.tdiv box.nominal) > 0) := by
        rw [hdiv]
        have := min_le_right box.count 0
        omega
      have hr0 : ¬ (r = 0) := by omega
      simp only [hcan, if_false, hr0, hrest]

/-- C13: when every loaded box holds denomination 50 or 100, whatever the counts, a
withdrawal of 30 fails with InsufficientFunds and the state is unchanged.
The sort may be any function that meets `SortContract`. -/
theorem no_fallback_30 (sort : List Box → List Box) (hS : SortContract sort)
    (atm : ATM)
    (h : ∀ b ∈ atm.boxes, b.nominal ≠ 0 → b.nominal = 50 ∨ b.nominal = 100) :
    atm.withdrawDecoded sort 30 = (atm, .error .InsufficientFunds) := by
  have hp : previewLoop (sort atm.boxes) 30 = ([], 30) := by
    apply previewLoop_small _ _ (by decide)
    intro b hb
    have hb2 : b ∈ atm.boxes := ((hS atm.boxes).1).mem_iff.mp hb
    by_cases h0 : b.nominal = 0
    · exact Or.inl h0
    · rcases h b hb2 h0 with h5 | h1 <;> right <;> omega
  simp [ATM.withdrawDecoded, hp]

/-- Instance of `no_fallback_30`: with 100 × 4 in box 1 and 50 × 9 in box 2 a withdrawal
of 30 fails with InsufficientFunds and nothing changes. -/
theorem no_fallback_30_witness :
    ((ATM.new.loadDecoded 1 100 4).1.loadDecoded 2 50 9).1.withdrawDecoded stableSort 30 =
      (((ATM.new.loadDecoded 1 100 4).1.loadDecoded 2 50 9).1, .error .InsufficientFunds) :=
  no_fallback_30 stableSort stableSort_contract ((ATM.new.loadDecoded 1 100 4).1.loadDecoded 2 50 9).1 (by decide)

/-! ## Status report -/

theorem foldl_total (l : List Box) (a : Int) :
    l.foldl (fun total box => total + box.getTotalAmount) a =
      a + (l.map (fun b => b.nominal * b.count)).sum := by
  induction l generalizing a with
  | nil => simp
  | cons x xs ih =>
    rw [List.foldl_cons, ih, List.map_cons, List.sum_cons, Box.getTotalAmount]
    ring

theorem total_bounds (l : List Box) (h : ∀ b ∈ l, b.Inv) :
    0 ≤ (l.map (fun b => b.nominal * b.count)).sum ∧
      (l.map (fun b => b.nominal * b.count)).sum ≤ 10000 * l.length := by
  induction l with
  | nil => simp
  | cons x xs ih =>
    obtain ⟨h0, h1⟩ := ih (fun b hb => h b (List.mem_cons_of_mem _ hb))
    obtain ⟨hn, hc0, hc1⟩ := h x (List.mem_cons_self _ _)
    have hn0 : 0 ≤ x.nominal := by unfold allowedNominal at hn; omega
    have hn1 : x.nominal ≤ 100 := by unfold allowedNominal at hn; omega
    have hx0 : 0 ≤ x.nominal * x.count := Int.mul_nonneg hn0 hc0
    have hx1 : x.nominal * x.count ≤ 100 * 100 := Int.mul_le_mul hn1 hc1 hc0 (by omega)
    simp only [List.map_cons, List.sum_cons, List.length_cons]
    push_cast
    omega

/-- C14: the status report cannot fail and leaves the dispenser state as it is; the
total it reports is the sum of denomination × count over the containers; a second
report right after the first gives the same lines and the same total; any input line
starting with `P` produces exactly this report.  On six containers that satisfy the
invariant the total lies in [0, 60000]. -/
theorem status_read_only (sort : List Box → List Box) (atm : ATM) :
    atm.printStatus.1 = atm ∧
    atm.printStatus.2.2 = (atm.boxes.map (fun b => b.nominal * b.count)).sum ∧
    atm.printStatus.1.printStatus.2 = atm.printStatus.2 ∧
    (∀ rest : List Char, atm.processCommand sort ('P' :: rest) =
      (atm, .ok (.status atm.printStatus.2.1 atm.printStatus.2.2))) ∧
    (atm.WF → atm.Inv → 0 ≤ atm.printStatus.2.2 ∧ atm.printStatus.2.2 ≤ 60000) := by
  have htot : atm.printStatus.2.2 = (atm.boxes.map (fun b => b.nominal * b.count)).sum := by
    simp only [ATM.printStatus, foldl_total, zero_add]
  refine ⟨rfl, htot, rfl, ?_, ?_⟩
  · intro rest
    have h1 : ¬ ('P' = 'L') := by decide
    have h2 : ¬ ('P' = 'W') := by decide
    simp only [ATM.processCommand, h1, h2, if_false, if_true]
    rfl
  · intro hwf hinv
    have hb := total_bounds atm.boxes hinv
    rw [length_of_wf atm hwf] at hb
    rw [htot]
    have h2 := hb.2
    norm_num at h2
    exact ⟨hb.1, h2⟩

/-- Instance of `status_read_only`: on the sample state (20 × 3 and 50 × 1) the report
shows the total 110, twice in a row, and the total is within [0, 60000]. -/
theorem status_read_only_witness :
    sampleATM.printStatus.2.2 = 110 ∧
    sampleATM.printStatus.1.printStatus.2.2 = 110 ∧
    sampleATM.processCommand stableSort "P".toList =
      (sampleATM, .ok (.status sampleATM.printStatus.2.1 110)) ∧
    (0 ≤ sampleATM.printStatus.2.2 ∧ sampleATM.printStatus.2.2 ≤ 60000) :=
  ⟨by decide, by decide, (status_read_only stableSort sampleATM).2.2.2.1 [],
   (status_read_only stableSort sampleATM).2.2.2.2 (by decide) (by decide)⟩

/-! ## Command routing -/

theorem loadDecoded_errors (atm : ATM) (boxNo nominal count : Int) (e : Err)
    (h : (atm.loadDecoded boxNo nominal count).2 = .error e) :
    e = .InvalidContainer ∨ e = .OutOfRange ∨ e = .InvalidCount ∨
      e = .InvalidDenomination := by
  by_cases h1 : boxNo < 1 ∨ boxNo > 6
  · simp [ATM.loadDecoded, h1] at h
    exact Or.inl h.symm
  · cases hs : subscript atm.boxes (boxNo - 1) with
    | none =>
      simp [ATM.loadDecoded, h1, hs] at h
      exact Or.inr (Or.inl h.symm)
    | some box =>
      simp only [ATM.loadDecoded, h1, if_false, hs] at h
      unfold Box.load at h
      split at h
      · simp at h; exact Or.inr (Or.inr (Or.inl h.symm))
      · split at h
        · simp at h; exact Or.inr (Or.inr (Or.inr h.symm))
        · simp at h

theorem withdrawDecoded_errors {sort : List Box → List Box} (atm : ATM) (amount : Int) (e : Err)
    (h : (atm.withdrawDecoded sort amount).2 = .error e) :
    e = .AmountTooLarge ∨ e = .InsufficientFunds ∨ e = .OutOfRange := by
  by_cases h1 : amount > 3000
  · simp [ATM.withdrawDecoded, h1] at h
    exact Or.inl h.symm
  · by_cases h2 : (previewLoop (sort atm.boxes) amount).2 > 0
    · simp [ATM.withdrawDecoded, h1, h2] at h
      exact Or.inr (Or.inl h.symm)
    · simp only [ATM.withdrawDecoded, h1, h2, if_false] at h
      exact Or.inr (Or.inr (commitLoop_error _ _ _ h))

theorem except_map_error {α β : Type} (r : Except Err α) (f : α → β) (e : Err)
    (h : r.map f = .error e) : r = .error e := by
  cases r with
  | error e2 => simpa [Except.map] using h
  | ok a => simp [Except.map] at h

/-- C15: `processCommand` fails with UnknownCommand exactly when the input line is
non-empty and its first character is none of `L`, `W`, `P`; such a failure leaves the
state unchanged; and the empty line succeeds silently with the state unchanged. -/
theorem command_routing (sort : List Box → List Box) (atm : ATM) (cmd : List Char) :
    ((atm.processCommand sort cmd).2 = .error .UnknownCommand ↔
      ∃ c rest, cmd = c :: rest ∧ c ≠ 'L' ∧ c ≠ 'W' ∧ c ≠ 'P') ∧
    ((atm.processCommand sort cmd).2 = .error .UnknownCommand →
      (atm.processCommand sort cmd).1 = atm) ∧
    atm.processCommand sort [] = (atm, .ok .silent) := by
  have hempty : atm.processCommand sort [] = (atm, .ok .silent) := rfl
  cases cmd with
  | nil =>
    refine ⟨⟨fun h => ?_, fun h => ?_⟩, fun _ => rfl, hempty⟩
    · rw [hempty] at h; cases h
    · obtain ⟨c, rest, hc, -⟩ := h; cases hc
  | cons c rest =>
    by_cases hL : c = 'L'
    · have hne : (atm.processCommand sort (c :: rest)).2 ≠ .error .UnknownCommand := by
        intro h
        simp only [ATM.processCommand, hL, if_true] at h
        have h2 := except_map_error _ _ _ h
        unfold ATM.loadBox at h2
        split at h2
        · rcases loadDecoded_errors _ _ _ _ _ h2 with h3 | h3 | h3 | h3 <;> cases h3
        · cases h2
      refine ⟨⟨fun h => absurd h hne, fun h => ?_⟩, fun h => absurd h hne, hempty⟩
      obtain ⟨c2, rest2, hc, h1, -, -⟩ := h
      simp only [List.cons.injEq] at hc
      exact absurd (hc.1.symm.trans hL) h1
    · by_cases hW : c = 'W'
      · have hne : (atm.processCommand sort (c :: rest)).2 ≠ .error .UnknownCommand := by
          intro h
          simp only [ATM.processCommand, hL, hW, if_true, if_false] at h
          have h2 := except_map_error _ _ _ h
          unfold ATM.withdrawMoney at h2
          split at h2
          · cases h2
          · rcases withdrawDecoded_errors _ _ _ h2 with h3 | h3 | h3 <;> cases h3
        refine ⟨⟨fun h => absurd h hne, fun h => ?_⟩, fun h => absurd h hne, hempty⟩
        obtain ⟨c2, rest2, hc, -, h1, -⟩ := h
        simp only [List.cons.injEq] at hc
        exact absurd (hc.1.symm.trans hW) h1
      · by_cases hP : c = 'P'
        · have hne : (atm.processCommand sort (c :: rest)).2 ≠ .error .UnknownCommand := by
            intro h
            simp only [ATM.processCommand, hL, hW, hP, if_true, if_false] at h
            cases h
          refine ⟨⟨fun h => absurd h hne, fun h => ?_⟩, fun h => absurd h hne, hempty⟩
          obtain ⟨c2, rest2, hc, -, -, h1⟩ := h
          simp only [List.cons.injEq] at hc
          exact absurd (hc.1.symm.trans hP) h1
        · have hr : atm.processCommand sort (c :: rest) = (atm, .error .UnknownCommand) := by
            simp only [ATM.processCommand, hL, hW, hP, if_false]
          rw [hr]
          exact ⟨⟨fun _ => ⟨c, rest, rfl, hL, hW, hP⟩, fun _ => rfl⟩, fun _ => rfl, hempty⟩

/-- Instances of `command_routing`: the lines `X#1` and ` P` (leading blank) are
rejected as unknown with the state kept; the line `W#oops` fails, but not as an
unknown command. -/
theorem command_routing_witness :
    (sampleATM.processCommand stableSort "X#1".toList).2 = .error .UnknownCommand ∧
    (sampleATM.processCommand stableSort "X#1".toList).1 = sampleATM ∧
    (sampleATM.processCommand stableSort " P".toList).2 = .error .UnknownCommand ∧
    (sampleATM.processCommand stableSort "W#oops".toList).2 ≠ .error .UnknownCommand :=
  ⟨(command_routing stableSort sampleATM "X#1".toList).1.2 ⟨'X', "#1".toList, rfl, by decide, by decide,
     by decide⟩,
   (command_routing stableSort sampleATM "X#1".toList).2.1
     ((command_routing stableSort sampleATM "X#1".toList).1.2 ⟨'X', "#1".toList, rfl, by decide,
       by decide, by decide⟩),
   (command_routing stableSort sampleATM " P".toList).1.2 ⟨' ', "P".toList, rfl, by decide, by decide,
     by decide⟩,
   fun h => by
     obtain ⟨c, rest, hc, -, hW, -⟩ := (command_routing stableSort sampleATM "W#oops".toList).1.1 h
     have : c = 'W' := by
       have := congrArg List.head? hc
       simp at this
       exact this.symm
     exact hW this⟩

/-! ## Amounts outside the intended range -/

theorem inv_nominal_nonneg {sort : List Box → List Box} (hS : SortContract sort)
    (atm : ATM) (hinv : atm.Inv) :
    ∀ b ∈ sort atm.boxes, 0 ≤ b.nominal := by
  intro b hb
  have hb2 : b ∈ atm.boxes := ((hS atm.boxes).1).mem_iff.mp hb
  have := (hinv b hb2).1
  unfold allowedNominal at this
  omega

theorem previewLoop_nonpos (l : List Box) (r : Int) (hl : ∀ b ∈ l, 0 ≤ b.nominal)
    (hr : r ≤ 0) : previewLoop l r = ([], r) := by
  induction l with
  | nil => rfl
  | cons box rest ih =>
    have hrest := ih (fun b hb => hl b (List.mem_cons_of_mem _ hb))
    have hbox := hl box (List.mem_cons_self _ _)
    unfold previewLoop
    split
    · exact hrest
    · have hdiv : r.tdiv box.nominal ≤ 0 := by
        have h1 : 0 ≤ (-r).tdiv box.nominal := Int.tdiv_nonneg (by omega) hbox
        rw [Int.neg_tdiv] at h1
        omega
      have hcan : ¬ (min box.count (r.tdiv box.nominal) > 0) := by
        have := min_le_right box.count (r.tdiv box.nominal)
        omega
      simp only [hcan, if_false, hrest]
      split <;> rfl

/-- C19: on a dispenser whose containers satisfy the invariant, a withdrawal of an
amount that is zero or negative does not fail: it succeeds with an empty plan and
leaves the state unchanged.
The sort may be any function that meets `SortContract`. -/
theorem withdraw_nonpositive (sort : List Box → List Box) (hS : SortContract sort)
    (atm : ATM) (amount : Int) (hinv : atm.Inv)
    (ha : amount ≤ 0) : atm.withdrawDecoded sort amount = (atm, .ok []) := by
  have hp := previewLoop_nonpos (sort atm.boxes) amount (inv_nominal_nonneg hS atm hinv) ha
  have h1 : ¬ (amount > 3000) := by omega
  have h2 : ¬ (amount > 0) := by omega
  simp only [ATM.withdrawDecoded, h1, if_false, hp, h2, commitLoop]

/-- Instance of `withdraw_nonpositive`: on the sample state the withdrawals of 0 and of
-40 succeed with an empty plan, also when entered as the lines `W#0` and `W#-40`. -/
theorem withdraw_nonpositive_witness :
    sampleATM.Inv ∧
    sampleATM.withdrawDecoded stableSort 0 = (sampleATM, .ok []) ∧
    sampleATM.withdrawDecoded stableSort (-40) = (sampleATM, .ok []) ∧
    sampleATM.processCommand stableSort "W#0".toList = (sampleATM, .ok (.withdrawal [])) ∧
    sampleATM.processCommand stableSort "W#-40".toList = (sampleATM, .ok (.withdrawal [])) :=
  ⟨by decide, withdraw_nonpositive stableSort stableSort_contract sampleATM 0 (by decide) (by decide),
   withdraw_nonpositive stableSort stableSort_contract sampleATM (-40) (by decide) (by decide), rfl, rfl⟩

theorem previewLoop_value_dvd (l : List Box) (r : Int) (hl : ∀ b ∈ l, (10 : Int) ∣ b.nominal) :
    (10 : Int) ∣ planValue (previewLoop l r).1 := by
  unfold planValue
  apply List.dvd_sum
  intro x hx
  rw [List.mem_map] at hx
  obtain ⟨t, ht, htx⟩ := hx
  obtain ⟨b, hb, -, hnom, -⟩ := previewLoop_entries l r t ht
  rw [← htx, ← hnom]
  exact Dvd.dvd.mul_right (hl b hb) _

theorem withdraw_not_multiple {sort : List Box → List Box} (hS : SortContract sort)
    (atm : ATM) (amount : Int) (hinv : atm.Inv)
    (h0 : 0 < amount) (h1 : amount ≤ 3000) (hm : amount % 10 ≠ 0) :
    atm.withdrawDecoded sort amount = (atm, .error .InsufficientFunds) := by
  have hval := previewLoop_value (sort atm.boxes) amount
  have hnn := previewLoop_nonneg (sort atm.boxes) amount (inv_nominal_nonneg hS atm hinv)
    h0.le
  have hdvd := previewLoop_value_dvd (sort atm.boxes) amount (by
    intro b hb
    have hb2 : b ∈ atm.boxes := ((hS atm.boxes).1).mem_iff.mp hb
    have := (hinv b hb2).1
    unfold allowedNominal at this
    omega)
  have hpos : (previewLoop (sort atm.boxes) amount).2 > 0 := by omega
  have hle : ¬ (amount > 3000) := by omega
  simp only [ATM.withdrawDecoded, hle, if_false, hpos, if_true]

/-- C20: in every reachable state, a withdrawal of an amount A with 0 < A ≤ 3000 that is
not a multiple of 10 fails with InsufficientFunds and leaves the state unchanged.
The sort may be any function that meets `SortContract`. -/
theorem withdraw_not_multiple_of_ten (sort : List Box → List Box) (hS : SortContract sort)
    (atm : ATM) (amount : Int) (hr : Reachable sort atm)
    (h0 : 0 < amount) (h1 : amount ≤ 3000) (hm : amount % 10 ≠ 0) :
    atm.withdrawDecoded sort amount = (atm, .error .InsufficientFunds) :=
  withdraw_not_multiple hS atm amount (reachable_wf_inv hS atm hr).2 h0 h1 hm

/-- Instance of `withdraw_not_multiple_of_ten`: after loading 10 × 100 into box 1 a
withdrawal of 25 fails with InsufficientFunds and the hundred notes stay. -/
theorem withdraw_not_multiple_of_ten_witness :
    Reachable stableSort (ATM.new.loadDecoded 1 10 100).1 ∧
    (ATM.new.loadDecoded 1 10 100).1.withdrawDecoded stableSort 25 =
      ((ATM.new.loadDecoded 1 10 100).1, .error .InsufficientFunds) :=
  ⟨.load _ _ _ _ .start,
   withdraw_not_multiple_of_ten stableSort stableSort_contract (ATM.new.loadDecoded 1 10 100).1 25 (.load _ _ _ _ .start)
     (by decide) (by decide) (by decide)⟩

/-- C16: the greedy plan can miss a feasible selection.  The state with 50 × 1 in box 1
and 20 × 3 in box 2 is reachable, three notes from box 2 are within stock and worth
exactly 60, yet the withdrawal of 60 fails with InsufficientFunds and changes
nothing; so such a state, amount and selection exist.  This is so for every sort
function that meets the contract of `std::sort`. -/
theorem greedy_limitation (sort : List Box → List Box) (hS : SortContract sort) :
    (Reachable sort ((ATM.new.loadDecoded 1 50 1).1.loadDecoded 2 20 3).1 ∧
      withinStock ((ATM.new.loadDecoded 1 50 1).1.loadDecoded 2 20 3).1.boxes
        [0, 3, 0, 0, 0, 0] ∧
      selectionValue ((ATM.new.loadDecoded 1 50 1).1.loadDecoded 2 20 3).1.boxes
        [0, 3, 0, 0, 0, 0] = 60 ∧
      ((ATM.new.loadDecoded 1 50 1).1.loadDecoded 2 20 3).1.withdrawDecoded sort 60 =
        (((ATM.new.loadDecoded 1 50 1).1.loadDecoded 2 20 3).1, .error .InsufficientFunds)) ∧
    ∃ (atm : ATM) (amount : Int) (sel : List Int),
      Reachable sort atm ∧ 0 < amount ∧ amount ≤ 3000 ∧ withinStock atm.boxes sel ∧
      selectionValue atm.boxes sel = amount ∧
      atm.withdrawDecoded sort amount = (atm, .error .InsufficientFunds) := by
  have hr : Reachable sort ((ATM.new.loadDecoded 1 50 1).1.loadDecoded 2 20 3).1 :=
    .load _ _ _ _ (.load _ _ _ _ .start)
  have hs : withinStock ((ATM.new.loadDecoded 1 50 1).1.loadDecoded 2 20 3).1.boxes
      [0, 3, 0, 0, 0, 0] := by decide
  have hv : selectionValue ((ATM.new.loadDecoded 1 50 1).1.loadDecoded 2 20 3).1.boxes
      [0, 3, 0, 0, 0, 0] = 60 := by decide
  have hw : ((ATM.new.loadDecoded 1 50 1).1.loadDecoded 2 20 3).1.withdrawDecoded sort 60 =
      (((ATM.new.loadDecoded 1 50 1).1.loadDecoded 2 20 3).1, .error .InsufficientFunds) := by
    rw [withdrawDecoded_sort_independent hS stableSort_contract _ (by decide) 60]
    rfl
  exact ⟨⟨hr, hs, hv, hw⟩, _, 60, [0, 3, 0, 0, 0, 0], hr, by decide, by decide, hs, hv, hw⟩

/-- Instances of `greedy_limitation`: with `stableSort` and with `tiesFrontSort` as the
sort the withdrawal of 60 from 50 × 1 and 20 × 3 fails with InsufficientFunds. -/
theorem greedy_limitation_witness :
    SortContract stableSort ∧ SortContract tiesFrontSort ∧
    ((ATM.new.loadDecoded 1 50 1).1.loadDecoded 2 20 3).1.withdrawDecoded stableSort 60 =
      (((ATM.new.loadDecoded 1 50 1).1.loadDecoded 2 20 3).1, .error .InsufficientFunds) ∧
    ((ATM.new.loadDecoded 1 50 1).1.loadDecoded 2 20 3).1.withdrawDecoded tiesFrontSort 60 =
      (((ATM.new.loadDecoded 1 50 1).1.loadDecoded 2 20 3).1, .error .InsufficientFunds) :=
  ⟨stableSort_contract, tiesFrontSort_contract,
   (greedy_limitation stableSort stableSort_contract).1.2.2.2,
   (greedy_limitation tiesFrontSort tiesFrontSort_contract).1.2.2.2⟩

/-! ## Malformed input lines -/

/-- C18 (what the code does): an input line starting with `L` whose payload does not
decode is accepted silently, with no error and no change of state, whereas an input
line starting with `W` whose payload does not decode fails with MalformedCommand,
also without change of state. -/
theorem malformed_line_handling (sort : List Box → List Box) (atm : ATM) (rest : List Char) :
    (parseLoad ('L' :: rest) = none →
      atm.processCommand sort ('L' :: rest) = (atm, .ok .silent)) ∧
    (parseWithdraw ('W' :: rest) = none →
      atm.processCommand sort ('W' :: rest) = (atm, .error .MalformedCommand)) := by
  constructor
  · intro h
    simp only [ATM.processCommand, if_true, ATM.loadBox, h]
    rfl
  · intro h
    have h1 : ¬ ('W' = 'L') := by decide
    simp only [ATM.processCommand, h1, if_false, if_true, ATM.withdrawMoney, h]
    rfl

/-- Instances of `malformed_line_handling`: the load lines `L#1#10` (a field missing)
and `L#x#10#5` (a field that is no integer) do not decode and are accepted silently;
the withdrawal line `W#abc` does not decode and is reported as MalformedCommand. -/
theorem malformed_line_handling_witness :
    parseLoad "L#1#10".toList = none ∧
    sampleATM.processCommand stableSort "L#1#10".toList = (sampleATM, .ok .silent) ∧
    sampleATM.processCommand stableSort "L#x#10#5".toList = (sampleATM, .ok .silent) ∧
    sampleATM.processCommand stableSort "W#abc".toList = (sampleATM, .error .MalformedCommand) :=
  ⟨by decide,
   (malformed_line_handling stableSort sampleATM "#1#10".toList).1 (by decide),
   (malformed_line_handling stableSort sampleATM "#x#10#5".toList).1 (by decide),
   (malformed_line_handling stableSort sampleATM "#abc".toList).2 (by decide)⟩


/-! ## Order among boxes of equal denomination -/

end ATMSim
